import Mathlib

/-!
# Verification of the mpv property/command dispatch core (src/player/command.c)

This file gives a shallow embedding of the hook manager, the
property-notification paths, the list-command driver, the command execution
pipeline and the cycle-values logic of `src/player/command.c`, and proves or
refutes the frozen specification claims about them.

Conventions:
* C strings are modelled as `String` / `List Char` (no embedded NUL bytes).
* Machine integers are modelled as `Int`; none of the verified claims
  depends on integer overflow behaviour.
* External collaborators (the client notification channel, the option
  storage, the property accessor table `m_property_do`) are modelled by
  abstract parameters: e.g. `mp_client_send_event` succeeds exactly when the
  target client is in the `live` list, mirroring how the dispatch core
  treats a send failure as "client is gone".
-/

set_option maxHeartbeats 1000000

/-! ## Hook manager (struct hook_handler and the mp_hook_* family) -/

/-- `struct hook_handler` from command.c. -/
structure HookHandler where
  client : String
  type : String
  user_id : Nat
  priority : Int
  seq : Int
  legacy : Bool
  active : Bool
deriving Repr, DecidableEq

/-- The hook-related fields of `struct command_ctx` plus the environment the
hook code interacts with: `live` is the set of connected client names
(`mp_client_exists`), and `wakeups` counts calls to `mp_wakeup_core`. -/
structure HookState where
  hooks : List HookHandler
  hook_seq : Int
  live : List String
  wakeups : Nat
deriving Repr, DecidableEq

def MPV_ERROR_INVALID_PARAMETER : Int := -4

/-- The scanning loop of `run_next_hook_handler`, acting on the suffix of the
hook array starting at the scan index.  On finding the first handler of the
given type it performs `invoke_hook_handler`: the handler's `active` flag is
set and the hook event is sent to its client; if the client does not exist
the send fails, the handler (whose `active` flag was just set) is removed
again by `hook_remove` and `mp_wakeup_core` is called.  If no handler of the
type exists, the hook is finished and `mp_wakeup_core` is called.
Returns (new suffix, result of `run_next_hook_handler`, wakeups issued). -/
def run_next_hook_aux (live : List String) (t : String) :
    List HookHandler → List HookHandler × Int × Nat
  | [] => ([], 0, 1)
  | h :: rest =>
    if h.type = t then
      if live.contains h.client then
        ({ h with active := true } :: rest, 0, 0)
      else
        (rest, -1, 1)
    else
      let r := run_next_hook_aux live t rest
      (h :: r.1, r.2.1, r.2.2)

/-- `run_next_hook_handler(mpctx, type, index)`. -/
def run_next_hook_handler (s : HookState) (t : String) (index : Nat) :
    HookState × Int :=
  let r := run_next_hook_aux s.live t (s.hooks.drop index)
  ({ s with hooks := s.hooks.take index ++ r.1, wakeups := s.wakeups + r.2.2 },
   r.2.1)

/-- The retry loop of `mp_hook_start`, with explicit fuel.  Each failing
iteration removes one broken client's handler, so `hooks.length + 1` units of
fuel always suffice (`mp_hook_start` below). -/
def mp_hook_start_loop (t : String) : Nat → HookState → HookState
  | 0, s => s
  | fuel + 1, s =>
    let r := run_next_hook_handler s t 0
    if r.2 < 0 then mp_hook_start_loop t fuel r.1 else r.1

/-- `mp_hook_start(mpctx, type)`: repeat `run_next_hook_handler(type, 0)`
until all broken clients have been removed and hook processing has
successfully started. -/
def mp_hook_start (s : HookState) (t : String) : HookState :=
  mp_hook_start_loop t (s.hooks.length + 1) s

/-- The search loop of `mp_hook_continue`: find the first handler with the
given client name and seq id; if it is not active the loop breaks and the
function fails with `MPV_ERROR_INVALID_PARAMETER`; otherwise the `active`
flag is cleared and `run_next_hook_handler(type, n + 1)` runs on the suffix
after the handler.  Returns (new list, return value, wakeups issued). -/
def mp_hook_continue_aux (live : List String) (c : String) (id : Int) :
    List HookHandler → List HookHandler × Int × Nat
  | [] => ([], MPV_ERROR_INVALID_PARAMETER, 0)
  | h :: rest =>
    if h.client = c ∧ h.seq = id then
      if h.active then
        let r := run_next_hook_aux live h.type rest
        ({ h with active := false } :: r.1, r.2.1, r.2.2)
      else
        (h :: rest, MPV_ERROR_INVALID_PARAMETER, 0)
    else
      let r := mp_hook_continue_aux live c id rest
      (h :: r.1, r.2.1, r.2.2)

/-- `mp_hook_continue(mpctx, client, id)`. -/
def mp_hook_continue (s : HookState) (c : String) (id : Int) :
    HookState × Int :=
  let r := mp_hook_continue_aux s.live c id s.hooks
  ({ s with hooks := r.1, wakeups := s.wakeups + r.2.2 }, r.2.1)

/-- The scanning loop of `mp_hook_test_completion`: look for an active
handler of the given type; if its client no longer exists, remove the
handler and break (the function then reports completion); if the client is
alive, report "not complete". -/
def mp_hook_test_completion_aux (live : List String) (t : String) :
    List HookHandler → List HookHandler × Bool
  | [] => ([], true)
  | h :: rest =>
    if h.active = true ∧ h.type = t then
      if live.contains h.client then (h :: rest, false)
      else (rest, true)
    else
      let r := mp_hook_test_completion_aux live t rest
      (h :: r.1, r.2)

/-- `mp_hook_test_completion(mpctx, type)`. -/
def mp_hook_test_completion (s : HookState) (t : String) : HookState × Bool :=
  let r := mp_hook_test_completion_aux s.live t s.hooks
  ({ s with hooks := r.1 }, r.2)

/-- The order realised by `compare_hook`: ascending priority, ties broken by
ascending seq. -/
def hookLE (h1 h2 : HookHandler) : Prop :=
  h1.priority < h2.priority ∨ (h1.priority = h2.priority ∧ h1.seq ≤ h2.seq)

instance : DecidableRel hookLE := fun a b => by
  unfold hookLE; exact inferInstance

/-- `mp_hook_add(mpctx, client, name, user_id, pri, legacy)`: allocate a new
inactive handler with the next sequence number, append it and re-sort the
array with `compare_hook` (the comparator is a total order on the
(priority, seq) keys, so any comparison sort yields the same result on
distinct keys; we use insertion sort). -/
def mp_hook_add (s : HookState) (client name : String) (user_id : Nat)
    (pri : Int) (legacy : Bool) : HookState :=
  let seq := s.hook_seq + 1
  let h : HookHandler :=
    { client := client, type := name, user_id := user_id, priority := pri,
      seq := seq, legacy := legacy, active := false }
  { s with hook_seq := seq,
           hooks := List.insertionSort hookLE (s.hooks ++ [h]) }

/-- The hook-facing operations a client can perform against command.c,
together with client disconnection (which the code observes through
`mp_client_exists`). -/
inductive HookOp where
  | add (client name : String) (user_id : Nat) (pri : Int) (legacy : Bool)
  | start (type : String)
  | ack (client : String) (id : Int)
  | poll (type : String)
  | disconnect (client : String)
deriving Repr, DecidableEq

def hookStep (s : HookState) : HookOp → HookState
  | .add c n uid pri legacy => mp_hook_add s c n uid pri legacy
  | .start t => mp_hook_start s t
  | .ack c id => (mp_hook_continue s c id).1
  | .poll t => (mp_hook_test_completion s t).1
  | .disconnect c => { s with live := s.live.erase c }

def runHookOps (s : HookState) : List HookOp → HookState
  | [] => s
  | op :: ops => runHookOps (hookStep s op) ops

/-- Handlers of type `t` that are currently marked active. -/
def activeOfType (s : HookState) (t : String) : List HookHandler :=
  s.hooks.filter fun h => h.active && decide (h.type = t)

/-- An empty hook state with clients "A" and "B" connected. -/
def hookDemoInit : HookState :=
  { hooks := [], hook_seq := 0, live := ["A", "B"], wakeups := 0 }

/-! ## Characterisation lemmas for the hook scanning loops -/

theorem hookLE_congr_left {a a' b : HookHandler} (hp : a.priority = a'.priority)
    (hs : a.seq = a'.seq) : hookLE a b ↔ hookLE a' b := by
  unfold hookLE; rw [hp, hs]

theorem hookLE_congr_right {a b b' : HookHandler} (hp : b.priority = b'.priority)
    (hs : b.seq = b'.seq) : hookLE a b ↔ hookLE a b' := by
  unfold hookLE; rw [hp, hs]

/-- Replacing the middle element of a sorted list by one with the same
(priority, seq) key keeps it sorted. -/
theorem sorted_middle_congr {pre post : List HookHandler} {a b : HookHandler}
    (hp : a.priority = b.priority) (hs : a.seq = b.seq)
    (h : List.Sorted hookLE (pre ++ a :: post)) :
    List.Sorted hookLE (pre ++ b :: post) := by
  rw [List.Sorted, List.pairwise_append] at h ⊢
  obtain ⟨h1, h2, h3⟩ := h
  rw [List.pairwise_cons] at h2 ⊢
  refine ⟨h1, ⟨fun x hx => (hookLE_congr_left hp hs).1 (h2.1 x hx), h2.2⟩, ?_⟩
  intro x hx y hy
  rcases List.mem_cons.1 hy with rfl | hy'
  · exact (hookLE_congr_right hp hs).1 (h3 x hx a (List.mem_cons_self _ _))
  · exact h3 x hx y (List.mem_cons.2 (Or.inr hy'))

/-- What the scan of `run_next_hook_handler` does: either no handler of the
type exists and nothing changes (one wakeup, result 0), or the first handler
of the type is activated (live client, result 0), or it is removed (dead
client, result negative, one wakeup). -/
theorem run_next_hook_aux_spec (live : List String) (t : String) :
    ∀ hs : List HookHandler,
      ((∀ h ∈ hs, h.type ≠ t) ∧ run_next_hook_aux live t hs = (hs, 0, 1))
      ∨ (∃ pre h post, hs = pre ++ h :: post ∧ (∀ x ∈ pre, x.type ≠ t) ∧
          h.type = t ∧
          ((live.contains h.client = true ∧
            run_next_hook_aux live t hs =
              (pre ++ { h with active := true } :: post, 0, 0))
           ∨ (live.contains h.client = false ∧
              run_next_hook_aux live t hs = (pre ++ post, -1, 1))))
  | [] => Or.inl ⟨by simp, rfl⟩
  | h :: rest => by
    by_cases ht : h.type = t
    · right
      refine ⟨[], h, rest, rfl, by simp, ht, ?_⟩
      by_cases hl : live.contains h.client = true
      · exact Or.inl ⟨hl, by
          have hl2 : h.client ∈ live := by simpa using hl
          simp [run_next_hook_aux, ht, hl2]⟩
      · refine Or.inr ⟨by simpa using hl, by
          have hl2 : h.client ∉ live := by simpa using hl
          simp [run_next_hook_aux, ht, hl2]⟩
    · rcases run_next_hook_aux_spec live t rest with ⟨hall, heq⟩ |
        ⟨pre, h0, post, hdec, hpre, h0t, hcase⟩
      · refine Or.inl ⟨?_, ?_⟩
        · intro x hx
          rcases List.mem_cons.1 hx with rfl | hx'
          · exact ht
          · exact hall x hx'
        · simp [run_next_hook_aux, ht, heq]
      · refine Or.inr ⟨h :: pre, h0, post, by simp [hdec], ?_, h0t, ?_⟩
        · intro x hx
          rcases List.mem_cons.1 hx with rfl | hx'
          · exact ht
          · exact hpre x hx'
        · rcases hcase with ⟨hl, heq⟩ | ⟨hl, heq⟩
          · exact Or.inl ⟨hl, by simp [run_next_hook_aux, ht, heq]⟩
          · exact Or.inr ⟨hl, by simp [run_next_hook_aux, ht, heq]⟩

/-- What the search loop of `mp_hook_continue` does. -/
theorem mp_hook_continue_aux_spec (live : List String) (c : String) (id : Int) :
    ∀ hs : List HookHandler,
      ((∀ h ∈ hs, ¬(h.client = c ∧ h.seq = id)) ∧
        mp_hook_continue_aux live c id hs = (hs, MPV_ERROR_INVALID_PARAMETER, 0))
      ∨ (∃ pre h post, hs = pre ++ h :: post ∧
          (∀ x ∈ pre, ¬(x.client = c ∧ x.seq = id)) ∧ h.client = c ∧ h.seq = id ∧
          ((h.active = false ∧
            mp_hook_continue_aux live c id hs = (hs, MPV_ERROR_INVALID_PARAMETER, 0))
           ∨ (h.active = true ∧
              mp_hook_continue_aux live c id hs =
                (pre ++ { h with active := false } ::
                    (run_next_hook_aux live h.type post).1,
                  (run_next_hook_aux live h.type post).2.1,
                  (run_next_hook_aux live h.type post).2.2))))
  | [] => Or.inl ⟨by simp, rfl⟩
  | h :: rest => by
    by_cases hm : h.client = c ∧ h.seq = id
    · right
      refine ⟨[], h, rest, rfl, by simp, hm.1, hm.2, ?_⟩
      by_cases ha : h.active
      · exact Or.inr ⟨ha, by simp [mp_hook_continue_aux, hm, ha]⟩
      · exact Or.inl ⟨by simpa using ha, by simp [mp_hook_continue_aux, hm, ha]⟩
    · rcases mp_hook_continue_aux_spec live c id rest with ⟨hall, heq⟩ |
        ⟨pre, h0, post, hdec, hpre, h0c, h0s, hcase⟩
      · refine Or.inl ⟨?_, ?_⟩
        · intro x hx
          rcases List.mem_cons.1 hx with rfl | hx'
          · exact hm
          · exact hall x hx'
        · simp [mp_hook_continue_aux, hm, heq]
      · refine Or.inr ⟨h :: pre, h0, post, by simp [hdec], ?_, h0c, h0s, ?_⟩
        · intro x hx
          rcases List.mem_cons.1 hx with rfl | hx'
          · exact hm
          · exact hpre x hx'
        · rcases hcase with ⟨ha, heq⟩ | ⟨ha, heq⟩
          · exact Or.inl ⟨ha, by simp [mp_hook_continue_aux, hm, heq]⟩
          · exact Or.inr ⟨ha, by simp [mp_hook_continue_aux, hm, heq]⟩

/-- What the scan of `mp_hook_test_completion` does. -/
theorem mp_hook_test_completion_aux_spec (live : List String) (t : String) :
    ∀ hs : List HookHandler,
      ((∀ h ∈ hs, ¬(h.active = true ∧ h.type = t)) ∧
        mp_hook_test_completion_aux live t hs = (hs, true))
      ∨ (∃ pre h post, hs = pre ++ h :: post ∧
          (∀ x ∈ pre, ¬(x.active = true ∧ x.type = t)) ∧
          h.active = true ∧ h.type = t ∧
          ((live.contains h.client = true ∧
            mp_hook_test_completion_aux live t hs = (hs, false))
           ∨ (live.contains h.client = false ∧
              mp_hook_test_completion_aux live t hs = (pre ++ post, true))))
  | [] => Or.inl ⟨by simp, rfl⟩
  | h :: rest => by
    by_cases hm : h.active = true ∧ h.type = t
    · right
      refine ⟨[], h, rest, rfl, by simp, hm.1, hm.2, ?_⟩
      by_cases hl : live.contains h.client = true
      · exact Or.inl ⟨hl, by
          have hl2 : h.client ∈ live := by simpa using hl
          simp [mp_hook_test_completion_aux, hm, hl2]⟩
      · exact Or.inr ⟨by simpa using hl, by
          have hl2 : h.client ∉ live := by simpa using hl
          simp [mp_hook_test_completion_aux, hm, hl2]⟩
    · rcases mp_hook_test_completion_aux_spec live t rest with ⟨hall, heq⟩ |
        ⟨pre, h0, post, hdec, hpre, h0a, h0t, hcase⟩
      · refine Or.inl ⟨?_, ?_⟩
        · intro x hx
          rcases List.mem_cons.1 hx with rfl | hx'
          · exact hm
          · exact hall x hx'
        · simp [mp_hook_test_completion_aux, hm, heq]
      · refine Or.inr ⟨h :: pre, h0, post, by simp [hdec], ?_, h0a, h0t, ?_⟩
        · intro x hx
          rcases List.mem_cons.1 hx with rfl | hx'
          · exact hm
          · exact hpre x hx'
        · rcases hcase with ⟨hl, heq⟩ | ⟨hl, heq⟩
          · exact Or.inl ⟨hl, by simp [mp_hook_test_completion_aux, hm, heq]⟩
          · exact Or.inr ⟨hl, by simp [mp_hook_test_completion_aux, hm, heq]⟩

/-! ## The hook-ordering invariant maintained by command.c -/

instance : IsTotal HookHandler hookLE := ⟨by intro a b; unfold hookLE; omega⟩

instance : IsTrans HookHandler hookLE := ⟨by intro a b c; unfold hookLE; omega⟩

/-- Strictly smaller (priority, seq) key. -/
def hookLT (h1 h2 : HookHandler) : Prop :=
  h1.priority < h2.priority ∨ (h1.priority = h2.priority ∧ h1.seq < h2.seq)

/-- Invariant of the hook registration list: sorted by (priority, seq),
sequence numbers pairwise distinct and bounded by the `hook_seq` counter,
and at most one handler of each hook type marked active. -/
structure HookInv (s : HookState) : Prop where
  sorted : List.Sorted hookLE s.hooks
  nodup : (s.hooks.map HookHandler.seq).Nodup
  bounded : ∀ h ∈ s.hooks, h.seq ≤ s.hook_seq
  oneActive : ∀ t, (activeOfType s t).length ≤ 1

theorem hookInv_congr {s s' : HookState} (hh : s'.hooks = s.hooks)
    (hc : s'.hook_seq = s.hook_seq) (hinv : HookInv s) : HookInv s' := by
  refine ⟨?_, ?_, ?_, ?_⟩
  · rw [hh]; exact hinv.sorted
  · rw [hh]; exact hinv.nodup
  · rw [hh, hc]; exact hinv.bounded
  · intro t
    have := hinv.oneActive t
    unfold activeOfType at this ⊢
    rw [hh]; exact this

/-- The filter used by `activeOfType`. -/
def activeP (t : String) (h : HookHandler) : Bool :=
  h.active && decide (h.type = t)

theorem activeOfType_eq (s : HookState) (t : String) :
    activeOfType s t = s.hooks.filter (activeP t) := rfl

theorem hookInv_add (s : HookState) (c n : String) (uid : Nat) (pri : Int)
    (lg : Bool) (hinv : HookInv s) : HookInv (mp_hook_add s c n uid pri lg) := by
  set h : HookHandler :=
    { client := c, type := n, user_id := uid, priority := pri,
      seq := s.hook_seq + 1, legacy := lg, active := false } with hdef
  have hperm : List.Perm (List.insertionSort hookLE (s.hooks ++ [h]))
      (s.hooks ++ [h]) :=
    List.perm_insertionSort hookLE _
  refine ⟨?_, ?_, ?_, ?_⟩
  · exact List.sorted_insertionSort hookLE _
  · have := (hperm.map HookHandler.seq).nodup_iff
    rw [mp_hook_add]
    refine this.2 ?_
    rw [List.map_append]
    refine List.Nodup.append hinv.nodup (by simp) ?_
    intro a ha hb
    simp only [List.map_cons, List.map_nil, List.mem_singleton] at hb
    subst hb
    simp only [List.mem_map] at ha
    obtain ⟨x, hx, hxs⟩ := ha
    have := hinv.bounded x hx
    have hv : h.seq = s.hook_seq + 1 := rfl
    omega
  · intro x hx
    have hseq2 : (mp_hook_add s c n uid pri lg).hook_seq = s.hook_seq + 1 := rfl
    rw [mp_hook_add] at hx
    simp only [List.mem_insertionSort, List.mem_append, List.mem_singleton] at hx
    rw [hseq2]
    rcases hx with hx | rfl
    · have := hinv.bounded x hx
      omega
    · simp [hdef]
  · intro t
    rw [activeOfType_eq]
    have hfp : List.Perm
        ((List.insertionSort hookLE (s.hooks ++ [h])).filter (activeP t))
        ((s.hooks ++ [h]).filter (activeP t)) := hperm.filter _
    simp only [mp_hook_add]
    rw [hfp.length_eq, List.filter_append]
    have : [h].filter (activeP t) = [] := by
      simp [activeP, hdef]
    rw [this, List.append_nil]
    exact hinv.oneActive t

theorem hookLE_of_sorted_decomp {pre post : List HookHandler}
    {a b : HookHandler} (hs : List.Sorted hookLE (pre ++ a :: post))
    (hb : b ∈ post) : hookLE a b := by
  rw [List.Sorted, List.pairwise_append] at hs
  exact (List.pairwise_cons.1 hs.2.1).1 b hb

theorem filter_eq_nil_of {α : Type} (p : α → Bool) (l : List α)
    (h : ∀ x ∈ l, p x = false) : l.filter p = [] := by
  induction l with
  | nil => rfl
  | cons a l ih =>
    rw [List.filter_cons, h a (by simp)]
    simpa using ih fun x hx => h x (by simp [hx])

theorem filter_append_cons_neg {α : Type} {p : α → Bool} {a : α}
    (pre post : List α) (ha : p a = false) :
    (pre ++ a :: post).filter p = pre.filter p ++ post.filter p := by
  rw [List.filter_append, List.filter_cons, ha]; simp

theorem filter_append_cons_pos {α : Type} {p : α → Bool} {a : α}
    (pre post : List α) (ha : p a = true) :
    (pre ++ a :: post).filter p = pre.filter p ++ a :: post.filter p := by
  rw [List.filter_append, List.filter_cons, ha]; simp

/-- If no handler of type `t` is active, one iteration-or-loop of
`mp_hook_start` preserves the invariant. -/
theorem hookInv_start_loop (t : String) :
    ∀ (fuel : Nat) (s : HookState), HookInv s →
      (∀ h ∈ s.hooks, h.type = t → h.active = false) →
      HookInv (mp_hook_start_loop t fuel s)
  | 0, _, hinv, _ => hinv
  | fuel + 1, s, hinv, hno => by
    rcases run_next_hook_aux_spec s.live t s.hooks with ⟨hall, heq⟩ |
      ⟨pre, h, post, hdec, hpre, htyp, ⟨hl, heq⟩ | ⟨hl, heq⟩⟩
    · have hres : mp_hook_start_loop t (fuel + 1) s =
          { s with hooks := s.hooks, wakeups := s.wakeups + 1 } := by
        simp [mp_hook_start_loop, run_next_hook_handler, heq]
      rw [hres]
      refine hookInv_congr ?_ ?_ hinv
      · rfl
      · rfl
    · -- first handler of the type is live: it is activated and the loop ends
      have hres : mp_hook_start_loop t (fuel + 1) s =
          { s with hooks := pre ++ { h with active := true } :: post } := by
        simp [mp_hook_start_loop, run_next_hook_handler, heq]
      rw [hres]
      refine ⟨?_, ?_, ?_, ?_⟩
      · have hsort0 : List.Sorted hookLE (pre ++ h :: post) := by
          rw [← hdec]; exact hinv.sorted
        exact @sorted_middle_congr pre post h { h with active := true } rfl rfl
          hsort0
      · have hm : (pre ++ { h with active := true } :: post).map HookHandler.seq
            = s.hooks.map HookHandler.seq := by
          rw [hdec]; simp
      
        show (List.map HookHandler.seq (pre ++ { h with active := true } :: post)).Nodup
        rw [hm]
        exact hinv.nodup
      · intro x hx
        simp only [List.mem_append, List.mem_cons] at hx
        rcases hx with hx | rfl | hx
        · exact hinv.bounded x (by rw [hdec]; simp [hx])
        · simpa using hinv.bounded h (by rw [hdec]; simp)
        · exact hinv.bounded x (by rw [hdec]; simp [hx])
      · intro t2
        rw [activeOfType_eq]
        show ((pre ++ { h with active := true } :: post).filter (activeP t2)).length ≤ 1
        by_cases ht2 : t2 = t
        · subst ht2
          have hfpre : pre.filter (activeP t2) = [] :=
            filter_eq_nil_of _ _ fun x hx => by
              simp [activeP, hpre x hx]
          have hfpost : post.filter (activeP t2) = [] :=
            filter_eq_nil_of _ _ fun x hx => by
              by_cases hxt : x.type = t2
              · have := hno x (by rw [hdec]; simp [hx]) hxt
                simp [activeP, this]
              · simp [activeP, hxt]
          rw [filter_append_cons_pos pre post (by simp [activeP, htyp]), hfpre,
            hfpost]
          simp
        · have ht2' : h.type ≠ t2 := by rw [htyp]; exact fun hh => ht2 hh.symm
          have hPneg : activeP t2 h = false := by
            simp [activeP, ht2']
          have hPneg2 : activeP t2 { h with active := true } = false := by
            simp [activeP]
            exact ht2'
          have hold := hinv.oneActive t2
          rw [activeOfType_eq, hdec, filter_append_cons_neg pre post hPneg] at hold
          rw [filter_append_cons_neg pre post hPneg2]
          exact hold
    · -- first handler of the type has a dead client: removed, loop repeats
      have hres : mp_hook_start_loop t (fuel + 1) s =
          mp_hook_start_loop t fuel
            { s with hooks := pre ++ post, wakeups := s.wakeups + 1 } := by
        simp [mp_hook_start_loop, run_next_hook_handler, heq]
      rw [hres]
      have hsub : List.Sublist (pre ++ post) s.hooks := by
        rw [hdec]; exact (List.sublist_cons_self h post).append_left pre
      refine hookInv_start_loop t fuel _ ⟨?_, ?_, ?_, ?_⟩ ?_
      · exact hinv.sorted.sublist hsub
      · exact hinv.nodup.sublist (hsub.map _)
      · intro x hx
        exact hinv.bounded x (hsub.subset hx)
      · intro t2
        rw [activeOfType_eq]
        calc ((pre ++ post).filter (activeP t2)).length
            ≤ (s.hooks.filter (activeP t2)).length := (hsub.filter _).length_le
          _ ≤ 1 := hinv.oneActive t2
      · intro x hx hxt
        exact hno x (hsub.subset hx) hxt

/-- Under the restriction that `mp_hook_start(type)` is only called when no
handler of that type is active, `mp_hook_start` preserves the invariant. -/
theorem hookInv_start (s : HookState) (t : String) (hinv : HookInv s)
    (hno : ∀ h ∈ s.hooks, h.type = t → h.active = false) :
    HookInv (mp_hook_start s t) :=
  hookInv_start_loop t (s.hooks.length + 1) s hinv hno

theorem eq_false_of_filter_nil {α : Type} {p : α → Bool} {l : List α}
    (h : l.filter p = []) : ∀ x ∈ l, p x = false := by
  induction l with
  | nil => intro x hx; cases hx
  | cons a l ih =>
    intro x hx
    rw [List.filter_cons] at h
    by_cases hpa : p a = true
    · rw [hpa] at h; simp at h
    · rcases List.mem_cons.1 hx with rfl | hx'
      · simpa using hpa
      · rw [if_neg (by simp [hpa])] at h
        exact ih h x hx'

/-- `mp_hook_continue` preserves the hook invariant (no extra restriction is
needed: an acknowledgment only ever advances to a later handler). -/
theorem hookInv_ack (s : HookState) (c : String) (id : Int) (hinv : HookInv s) :
    HookInv (mp_hook_continue s c id).1 := by
  rcases mp_hook_continue_aux_spec s.live c id s.hooks with ⟨hall, heq⟩ |
    ⟨pre, h, post, hdec, hpre, hcl, hsq, ⟨ha, heq⟩ | ⟨ha, heq⟩⟩
  · have hres : (mp_hook_continue s c id).1 = { s with hooks := s.hooks } := by
      simp [mp_hook_continue, heq]
    rw [hres]
    refine hookInv_congr ?_ ?_ hinv <;> rfl
  · have hres : (mp_hook_continue s c id).1 = { s with hooks := s.hooks } := by
      simp [mp_hook_continue, heq]
    rw [hres]
    refine hookInv_congr ?_ ?_ hinv <;> rfl
  · -- the acknowledged handler is deactivated; the next handler of its type
    -- (if any) is invoked
    have hPh : activeP h.type h = true := by simp [activeP, ha]
    have hone := hinv.oneActive h.type
    rw [activeOfType_eq, hdec, filter_append_cons_pos pre post hPh] at hone
    simp only [List.length_append, List.length_cons] at hone
    have hfpre : pre.filter (activeP h.type) = [] :=
      List.length_eq_zero.1 (by omega)
    have hfpost : post.filter (activeP h.type) = [] :=
      List.length_eq_zero.1 (by omega)
    have hpostF := eq_false_of_filter_nil hfpost
    have hpreF := eq_false_of_filter_nil hfpre
    have hsort0 : List.Sorted hookLE (pre ++ h :: post) := by
      rw [← hdec]; exact hinv.sorted
    have hsort1 : List.Sorted hookLE
        (pre ++ { h with active := false } :: post) :=
      @sorted_middle_congr pre post h { h with active := false } rfl rfl hsort0
    rcases run_next_hook_aux_spec s.live h.type post with ⟨hall2, haux⟩ |
      ⟨p1, x, p2, hdec2, hp1, hxt, ⟨hl2, haux⟩ | ⟨hl2, haux⟩⟩
    · -- no further handler of the type
      have hres : (mp_hook_continue s c id).1 =
          { s with hooks := pre ++ { h with active := false } :: post,
                   wakeups := s.wakeups + 1 } := by
        simp [mp_hook_continue, heq, haux]
      rw [hres]
      refine ⟨hsort1, ?_, ?_, ?_⟩
      · have hm : (pre ++ { h with active := false } :: post).map
            HookHandler.seq = s.hooks.map HookHandler.seq := by
          rw [hdec]; simp
        show (List.map HookHandler.seq
          (pre ++ { h with active := false } :: post)).Nodup
        rw [hm]; exact hinv.nodup
      · intro y hy
        simp only [List.mem_append, List.mem_cons] at hy
        rcases hy with hy | rfl | hy
        · exact hinv.bounded y (by rw [hdec]; simp [hy])
        · simpa using hinv.bounded h (by rw [hdec]; simp)
        · exact hinv.bounded y (by rw [hdec]; simp [hy])
      · intro t2
        rw [activeOfType_eq]
        show ((pre ++ { h with active := false } :: post).filter
          (activeP t2)).length ≤ 1
        have hP0 : activeP t2 { h with active := false } = false := by
          simp [activeP]
        rw [filter_append_cons_neg pre post hP0, ← List.filter_append]
        have hsub : List.Sublist (pre ++ post) s.hooks := by
          rw [hdec]; exact (List.sublist_cons_self h post).append_left pre
        calc ((pre ++ post).filter (activeP t2)).length
            ≤ (s.hooks.filter (activeP t2)).length := (hsub.filter _).length_le
          _ ≤ 1 := hinv.oneActive t2
    · -- the next handler of the type is activated
      have hres : (mp_hook_continue s c id).1 =
          { s with hooks := pre ++ { h with active := false } ::
              (p1 ++ { x with active := true } :: p2) } := by
        simp [mp_hook_continue, heq, haux]
      rw [hres]
      have e1 : ∀ y : HookHandler, pre ++ { h with active := false } ::
          (p1 ++ y :: p2) = (pre ++ { h with active := false } :: p1) ++
            (y :: p2) := by
        intro y; simp
      refine ⟨?_, ?_, ?_, ?_⟩
      · rw [e1]
        refine @sorted_middle_congr (pre ++ { h with active := false } :: p1)
          p2 x { x with active := true } rfl rfl ?_
        rw [← e1, ← hdec2]
        exact hsort1
      · have hm : (pre ++ { h with active := false } ::
            (p1 ++ { x with active := true } :: p2)).map HookHandler.seq =
            s.hooks.map HookHandler.seq := by
          rw [hdec, hdec2]; simp
        show (List.map HookHandler.seq (pre ++ { h with active := false } ::
          (p1 ++ { x with active := true } :: p2))).Nodup
        rw [hm]; exact hinv.nodup
      · intro y hy
        simp only [List.mem_append, List.mem_cons] at hy
        rcases hy with hy | rfl | hy | rfl | hy
        · exact hinv.bounded y (by rw [hdec]; simp [hy])
        · simpa using hinv.bounded h (by rw [hdec]; simp)
        · exact hinv.bounded y (by rw [hdec, hdec2]; simp [hy])
        · simpa using hinv.bounded x (by rw [hdec, hdec2]; simp)
        · exact hinv.bounded y (by rw [hdec, hdec2]; simp [hy])
      · intro t2
        rw [activeOfType_eq]
        show ((pre ++ { h with active := false } ::
          (p1 ++ { x with active := true } :: p2)).filter
            (activeP t2)).length ≤ 1
        have hP0 : activeP t2 { h with active := false } = false := by
          simp [activeP]
        rw [filter_append_cons_neg pre _ hP0]
        by_cases ht2 : t2 = h.type
        · rw [ht2]
          have hPx : activeP h.type { x with active := true } = true := by
            simp [activeP, hxt]
          rw [filter_append_cons_pos p1 p2 hPx, hfpre]
          have hfp1 : p1.filter (activeP h.type) = [] :=
            filter_eq_nil_of _ _ fun y hy =>
              hpostF y (by rw [hdec2]; simp [hy])
          have hfp2 : p2.filter (activeP h.type) = [] :=
            filter_eq_nil_of _ _ fun y hy =>
              hpostF y (by rw [hdec2]; simp [hy])
          rw [hfp1, hfp2]
          simp
        · have ht2' : x.type ≠ t2 := by
            rw [hxt]; exact fun hh => ht2 hh.symm
          have hPx : activeP t2 { x with active := true } = false := by
            simp [activeP]; exact ht2'
          rw [filter_append_cons_neg p1 p2 hPx, ← List.filter_append,
            ← List.filter_append]
          have hsub : List.Sublist (pre ++ (p1 ++ p2)) s.hooks := by
            rw [hdec, hdec2]
            refine List.Sublist.append_left ?_ pre
            refine List.Sublist.trans ?_ (List.sublist_cons_self h _)
            exact (List.sublist_cons_self x p2).append_left p1
          calc ((pre ++ (p1 ++ p2)).filter (activeP t2)).length
              ≤ (s.hooks.filter (activeP t2)).length :=
                (hsub.filter _).length_le
            _ ≤ 1 := hinv.oneActive t2
    · -- the next handler of the type has a dead client and is removed
      have hres : (mp_hook_continue s c id).1 =
          { s with hooks := pre ++ { h with active := false } :: (p1 ++ p2),
                   wakeups := s.wakeups + 1 } := by
        simp [mp_hook_continue, heq, haux]
      rw [hres]
      have hsub0 : List.Sublist
          (pre ++ { h with active := false } :: (p1 ++ p2))
          (pre ++ { h with active := false } :: (p1 ++ x :: p2)) := by
        refine List.Sublist.append_left ?_ pre
        refine List.Sublist.cons₂ _ ?_
        exact (List.sublist_cons_self x p2).append_left p1
      have hsort2 : List.Sorted hookLE
          (pre ++ { h with active := false } :: (p1 ++ x :: p2)) := by
        rw [← hdec2]; exact hsort1
      refine ⟨hsort2.sublist hsub0, ?_, ?_, ?_⟩
      · have hm : (pre ++ { h with active := false } ::
            (p1 ++ x :: p2)).map HookHandler.seq =
            s.hooks.map HookHandler.seq := by
          rw [hdec, hdec2]; simp
        have : (List.map HookHandler.seq
            (pre ++ { h with active := false } :: (p1 ++ x :: p2))).Nodup := by
          rw [hm]; exact hinv.nodup
        exact this.sublist (hsub0.map _)
      · intro y hy
        simp only [List.mem_append, List.mem_cons] at hy
        rcases hy with hy | rfl | hy | hy
        · exact hinv.bounded y (by rw [hdec]; simp [hy])
        · simpa using hinv.bounded h (by rw [hdec]; simp)
        · exact hinv.bounded y (by rw [hdec, hdec2]; simp [hy])
        · exact hinv.bounded y (by rw [hdec, hdec2]; simp [hy])
      · intro t2
        rw [activeOfType_eq]
        show ((pre ++ { h with active := false } :: (p1 ++ p2)).filter
          (activeP t2)).length ≤ 1
        have hP0 : activeP t2 { h with active := false } = false := by
          simp [activeP]
        rw [filter_append_cons_neg pre _ hP0, ← List.filter_append]
        have hsub : List.Sublist (pre ++ (p1 ++ p2)) s.hooks := by
          rw [hdec, hdec2]
          refine List.Sublist.append_left ?_ pre
          refine List.Sublist.trans ?_ (List.sublist_cons_self h _)
          exact (List.sublist_cons_self x p2).append_left p1
        calc ((pre ++ (p1 ++ p2)).filter (activeP t2)).length
            ≤ (s.hooks.filter (activeP t2)).length := (hsub.filter _).length_le
          _ ≤ 1 := hinv.oneActive t2

theorem hookInv_poll (s : HookState) (t : String) (hinv : HookInv s) :
    HookInv (mp_hook_test_completion s t).1 := by
  rcases mp_hook_test_completion_aux_spec s.live t s.hooks with ⟨hall, heq⟩ |
    ⟨pre, h, post, hdec, hpre, hact, htyp, ⟨hl, heq⟩ | ⟨hl, heq⟩⟩
  · have hres : (mp_hook_test_completion s t).1 =
        { s with hooks := s.hooks } := by
      simp [mp_hook_test_completion, heq]
    rw [hres]
    refine hookInv_congr ?_ ?_ hinv <;> rfl
  · have hres : (mp_hook_test_completion s t).1 =
        { s with hooks := s.hooks } := by
      simp [mp_hook_test_completion, heq]
    rw [hres]
    refine hookInv_congr ?_ ?_ hinv <;> rfl
  · have hres : (mp_hook_test_completion s t).1 =
        { s with hooks := pre ++ post } := by
      simp [mp_hook_test_completion, heq]
    rw [hres]
    have hsub : List.Sublist (pre ++ post) s.hooks := by
      rw [hdec]; exact (List.sublist_cons_self h post).append_left pre
    refine ⟨hinv.sorted.sublist hsub, hinv.nodup.sublist (hsub.map _), ?_, ?_⟩
    · intro x hx
      exact hinv.bounded x (hsub.subset hx)
    · intro t2
      rw [activeOfType_eq]
      calc ((pre ++ post).filter (activeP t2)).length
          ≤ (s.hooks.filter (activeP t2)).length := (hsub.filter _).length_le
        _ ≤ 1 := hinv.oneActive t2

/-- The well-formedness restriction on traces: `mp_hook_start(type)` is only
invoked to begin processing, i.e. while no handler of that type is active
(equivalently, while `mp_hook_test_completion(type)` would report
completion).  All other operations are unrestricted. -/
def startOK (s : HookState) : HookOp → Bool
  | .start t => !(s.hooks.any fun h => h.active && decide (h.type = t))
  | _ => true

def WFtrace : HookState → List HookOp → Bool
  | _, [] => true
  | s, op :: ops => startOK s op && WFtrace (hookStep s op) ops

theorem hookInv_step (s : HookState) (op : HookOp) (hinv : HookInv s)
    (hok : startOK s op = true) : HookInv (hookStep s op) := by
  cases op with
  | add c n uid pri legacy => exact hookInv_add s c n uid pri legacy hinv
  | start t =>
    refine hookInv_start s t hinv ?_
    intro h hh hht
    simp only [startOK, Bool.not_eq_true', List.any_eq_false] at hok
    have := hok h hh
    rw [hht] at this
    simpa using this
  | ack c id => exact hookInv_ack s c id hinv
  | poll t => exact hookInv_poll s t hinv
  | disconnect c =>
    refine hookInv_congr ?_ ?_ hinv <;> rfl

/-- The invariant holds along every well-formed trace. -/
theorem hookInv_runOps : ∀ (ops : List HookOp) (s : HookState), HookInv s →
    WFtrace s ops = true → HookInv (runHookOps s ops)
  | [], _, hinv, _ => hinv
  | op :: ops, s, hinv, hwf => by
    simp only [WFtrace, Bool.and_eq_true] at hwf
    exact hookInv_runOps ops (hookStep s op) (hookInv_step s op hinv hwf.1)
      hwf.2

/-- With no active handler of type `t`, the handler activated by the
`mp_hook_start` loop is minimal in (priority, seq) among the surviving
handlers of that type. -/
theorem start_loop_min (t : String) :
    ∀ (fuel : Nat) (s : HookState), List.Sorted hookLE s.hooks →
      (∀ h ∈ s.hooks, h.type = t → h.active = false) →
      ∀ h1 ∈ (mp_hook_start_loop t fuel s).hooks, h1.type = t →
        h1.active = true →
        ∀ h2 ∈ (mp_hook_start_loop t fuel s).hooks, h2.type = t → hookLE h1 h2
  | 0, s, _, hno => by
    intro h1 hm1 ht1 ha1 h2 _ _
    rw [mp_hook_start_loop] at hm1
    rw [hno h1 hm1 ht1] at ha1
    cases ha1
  | fuel + 1, s, hsort, hno => by
    rcases run_next_hook_aux_spec s.live t s.hooks with ⟨hall, heq⟩ |
      ⟨pre, h, post, hdec, hpre, htyp, ⟨hl, heq⟩ | ⟨hl, heq⟩⟩
    · have hres : mp_hook_start_loop t (fuel + 1) s =
          { s with hooks := s.hooks, wakeups := s.wakeups + 1 } := by
        simp [mp_hook_start_loop, run_next_hook_handler, heq]
      rw [hres]
      intro h1 hm1 ht1 ha1 h2 _ _
      rw [hno h1 hm1 ht1] at ha1
      cases ha1
    · have hres : mp_hook_start_loop t (fuel + 1) s =
          { s with hooks := pre ++ { h with active := true } :: post } := by
        simp [mp_hook_start_loop, run_next_hook_handler, heq]
      rw [hres]
      intro h1 hm1 ht1 ha1 h2 hm2 ht2
      have hsort0 : List.Sorted hookLE (pre ++ h :: post) := by
        rw [← hdec]; exact hsort
      have hm1' : h1 ∈ pre ++ { h with active := true } :: post := hm1
      have h1eq : h1 = { h with active := true } := by
        rcases List.mem_append.1 hm1' with hy | hy
        · exact absurd ht1 (hpre h1 hy)
        · rcases List.mem_cons.1 hy with rfl | hy'
          · rfl
          · rw [hno h1 (by rw [hdec]; simp [hy']) ht1] at ha1
            cases ha1
      subst h1eq
      rcases List.mem_append.1 hm2 with hy | hy
      · exact absurd ht2 (hpre h2 hy)
      · rcases List.mem_cons.1 hy with rfl | hy'
        · unfold hookLE; omega
        · have hle : hookLE h h2 := hookLE_of_sorted_decomp hsort0 hy'
          exact (@hookLE_congr_left h { h with active := true } h2 rfl rfl).1 hle
    · have hres : mp_hook_start_loop t (fuel + 1) s =
          mp_hook_start_loop t fuel
            { s with hooks := pre ++ post, wakeups := s.wakeups + 1 } := by
        simp [mp_hook_start_loop, run_next_hook_handler, heq]
      rw [hres]
      have hsub : List.Sublist (pre ++ post) s.hooks := by
        rw [hdec]; exact (List.sublist_cons_self h post).append_left pre
      exact start_loop_min t fuel _ (hsort.sublist hsub)
        fun x hx hxt => hno x (hsub.subset hx) hxt

/-- Distinct handlers in a seq-nodup list have distinct seqs. -/
theorem eq_of_seq_mem_nodup {a b : HookHandler} :
    ∀ {l : List HookHandler}, (l.map HookHandler.seq).Nodup → a ∈ l → b ∈ l →
      a.seq = b.seq → a = b
  | [], _, ha, _, _ => absurd ha (by simp)
  | x :: rest, hn, ha, hb, hs => by
    rw [List.map_cons, List.nodup_cons] at hn
    rcases List.mem_cons.1 ha with rfl | ha'
    · rcases List.mem_cons.1 hb with rfl | hb'
      · rfl
      · have hbm : b.seq ∈ rest.map HookHandler.seq :=
          List.mem_map_of_mem HookHandler.seq hb'
        rw [← hs] at hbm
        exact absurd hbm hn.1
    · rcases List.mem_cons.1 hb with rfl | hb'
      · have ham : a.seq ∈ rest.map HookHandler.seq :=
          List.mem_map_of_mem HookHandler.seq ha'
        rw [hs] at ham
        exact absurd ham hn.1
      · exact eq_of_seq_mem_nodup hn.2 ha' hb' hs

/-- After a successful acknowledgment of handler `h`, any handler of the
same type that is active in the new state is strictly later in
(priority, seq) order. -/
theorem ack_ascends (s : HookState) (c : String) (id : Int) (hinv : HookInv s) :
    ∀ h ∈ s.hooks, h.client = c → h.seq = id → h.active = true →
      ∀ h2 ∈ (mp_hook_continue s c id).1.hooks, h2.type = h.type →
        h2.active = true → hookLT h h2 := by
  intro h hm hc hs ha h2 hm2 ht2 ha2
  rcases mp_hook_continue_aux_spec s.live c id s.hooks with ⟨hall, heq⟩ |
    ⟨pre, hstar, post, hdec, hpre, hcl, hsq, hcase⟩
  · exact absurd ⟨hc, hs⟩ (hall h hm)
  · have hmem_star : hstar ∈ s.hooks := by rw [hdec]; simp
    have heqh : hstar = h :=
      eq_of_seq_mem_nodup hinv.nodup hmem_star hm (by rw [hsq, hs])
    subst heqh
    rcases hcase with ⟨hinact, _⟩ | ⟨hact, heq⟩
    · rw [hinact] at ha; cases ha
    · have hPh : activeP hstar.type hstar = true := by simp [activeP, ha]
      have hone := hinv.oneActive hstar.type
      rw [activeOfType_eq, hdec, filter_append_cons_pos pre post hPh] at hone
      simp only [List.length_append, List.length_cons] at hone
      have hfpre : pre.filter (activeP hstar.type) = [] :=
        List.length_eq_zero.1 (by omega)
      have hfpost : post.filter (activeP hstar.type) = [] :=
        List.length_eq_zero.1 (by omega)
      have hpostF := eq_false_of_filter_nil hfpost
      have hpreF := eq_false_of_filter_nil hfpre
      have hsort0 : List.Sorted hookLE (pre ++ hstar :: post) := by
        rw [← hdec]; exact hinv.sorted
      have hm2' : h2 ∈ pre ++ { hstar with active := false } ::
          (run_next_hook_aux s.live hstar.type post).1 := by
        have hres : (mp_hook_continue s c id).1.hooks =
            pre ++ { hstar with active := false } ::
              (run_next_hook_aux s.live hstar.type post).1 := by
          simp [mp_hook_continue, heq]
        rw [← hres]; exact hm2
      rcases List.mem_append.1 hm2' with hy | hy
      · have := hpreF h2 hy
        simp [activeP, ht2, ha2] at this
      · rcases List.mem_cons.1 hy with rfl | hy'
        · simp at ha2
        · rcases run_next_hook_aux_spec s.live hstar.type post with
            ⟨hall2, haux⟩ | ⟨p1, x, p2, hdec2, hp1, hxt, hsub⟩
          · rw [haux] at hy'
            have := hpostF h2 hy'
            simp [activeP, ht2, ha2] at this
          · rcases hsub with ⟨hl2, haux⟩ | ⟨hl2, haux⟩
            · rw [haux] at hy'
              have hy2 : h2 ∈ p1 ++ { x with active := true } :: p2 := hy'
              rcases List.mem_append.1 hy2 with hz | hz
              · have := hpostF h2 (by rw [hdec2]; simp [hz])
                simp [activeP, ht2, ha2] at this
              · rcases List.mem_cons.1 hz with rfl | hz'
                · have hlex : hookLE hstar x :=
                    hookLE_of_sorted_decomp hsort0 (by rw [hdec2]; simp)
                  have hxact : x.active = false := by
                    have := hpostF x (by rw [hdec2]; simp)
                    simpa [activeP, hxt] using this
                  have hne : hstar ≠ x := by
                    intro hhx
                    rw [hhx, hxact] at ha
                    cases ha
                  have hneq : hstar.seq ≠ x.seq := fun hseq_eq =>
                    hne (eq_of_seq_mem_nodup hinv.nodup hm
                      (by rw [hdec, hdec2]; simp) hseq_eq)
                  have hres : hookLT hstar x := by
                    rcases hlex with hlt | ⟨hpe, hse⟩
                    · exact Or.inl hlt
                    · exact Or.inr ⟨hpe, lt_of_le_of_ne hse hneq⟩
                  exact hres
                · have := hpostF h2 (by rw [hdec2]; simp [hz'])
                  simp [activeP, ht2, ha2] at this
            · rw [haux] at hy'
              have hy2 : h2 ∈ p1 ++ p2 := hy'
              rcases List.mem_append.1 hy2 with hz | hz
              · have := hpostF h2 (by rw [hdec2]; simp [hz])
                simp [activeP, ht2, ha2] at this
              · have := hpostF h2 (by rw [hdec2]; simp [hz])
                simp [activeP, ht2, ha2] at this

/-! ## Claim C1 -/

/-- C1 counterexample: the claim quantifies over arbitrary sequences of
register / start / acknowledge operations.  The sequence
add(A,"t",pri 0); add(B,"t",pri 10); start("t"); ack(A); start("t")
re-invokes the already-acknowledged first handler (the `mp_hook_start` scan
always restarts at index 0 and ignores `active` flags), leaving both A's and
B's handlers active at once — so "at most one active handler per type" fails
for unrestricted operation sequences. -/
theorem C1_counterexample :
    (activeOfType (runHookOps hookDemoInit
      [HookOp.add "A" "t" 0 0 false, HookOp.add "B" "t" 0 10 false,
       HookOp.start "t", HookOp.ack "A" 1, HookOp.start "t"]) "t").length
      = 2 := by
  decide

/-- C1 (amended): provided `mp_hook_start(type)` is only called while no
handler of that type is active (the well-formed traces `WFtrace`; this is
how the player core calls it, guarded by `mp_hook_test_completion`), then
(1) along any sequence of register / start / acknowledge / poll /
disconnect operations, at most one registered handler per hook type has its
active flag set; (2) `mp_hook_start` activates a handler minimal in
(priority, seq) order among the surviving handlers of the type; and
(3) after acknowledging a handler via `mp_hook_continue`, any handler of
the same type active in the resulting state is strictly greater in
(priority, seq) order — i.e. handlers of one type run one at a time in
ascending (priority, sequence number) order. -/
theorem C1_hook_serialization :
    (∀ (s : HookState) (ops : List HookOp), HookInv s →
        WFtrace s ops = true →
        ∀ t, (activeOfType (runHookOps s ops) t).length ≤ 1)
    ∧ (∀ (s : HookState) (t : String), HookInv s →
        (∀ h ∈ s.hooks, h.type = t → h.active = false) →
        ∀ h1 ∈ (mp_hook_start s t).hooks, h1.type = t → h1.active = true →
          ∀ h2 ∈ (mp_hook_start s t).hooks, h2.type = t → hookLE h1 h2)
    ∧ (∀ (s : HookState) (c : String) (id : Int), HookInv s →
        ∀ h ∈ s.hooks, h.client = c → h.seq = id → h.active = true →
          ∀ h2 ∈ (mp_hook_continue s c id).1.hooks, h2.type = h.type →
            h2.active = true → hookLT h h2) := by
  refine ⟨?_, ?_, ?_⟩
  · intro s ops hinv hwf t
    exact (hookInv_runOps ops s hinv hwf).oneActive t
  · intro s t hinv hno
    exact start_loop_min t (s.hooks.length + 1) s hinv.sorted hno
  · exact ack_ascends

/-- A state with two registered, inactive handlers of type "t". -/
def hookTwoInactive : HookState :=
  { hooks :=
      [{ client := "A", type := "t", user_id := 0, priority := 0, seq := 1,
         legacy := false, active := false },
       { client := "B", type := "t", user_id := 0, priority := 10, seq := 2,
         legacy := false, active := false }],
    hook_seq := 2, live := ["A", "B"], wakeups := 0 }

/-- The same state after `mp_hook_start` activated A's handler. -/
def hookAActive : HookState :=
  { hooks :=
      [{ client := "A", type := "t", user_id := 0, priority := 0, seq := 1,
         legacy := false, active := true },
       { client := "B", type := "t", user_id := 0, priority := 10, seq := 2,
         legacy := false, active := false }],
    hook_seq := 2, live := ["A", "B"], wakeups := 0 }

theorem hookInv_hookTwoInactive : HookInv hookTwoInactive := by
  refine ⟨?_, ?_, ?_, ?_⟩
  · refine List.sorted_cons.2 ⟨?_, ?_⟩
    · intro b hb
      simp only [hookTwoInactive, List.mem_singleton] at hb
      rw [hb]
      unfold hookLE
      simp
    · simp [hookTwoInactive]
  · simp [hookTwoInactive]
  · intro h hh
    simp only [hookTwoInactive, List.mem_cons, List.mem_singleton] at hh
    rcases hh with rfl | rfl | h'
    · simp [hookTwoInactive]
    · simp [hookTwoInactive]
    · cases h'
  · intro t
    simp [activeOfType, hookTwoInactive, activeP]

theorem hookInv_hookAActive : HookInv hookAActive := by
  refine ⟨?_, ?_, ?_, ?_⟩
  · refine List.sorted_cons.2 ⟨?_, ?_⟩
    · intro b hb
      simp only [hookAActive, List.mem_singleton] at hb
      rw [hb]
      unfold hookLE
      simp
    · simp [hookAActive]
  · simp [hookAActive]
  · intro h hh
    simp only [hookAActive, List.mem_cons, List.mem_singleton] at hh
    rcases hh with rfl | rfl | h'
    · simp [hookAActive]
    · simp [hookAActive]
    · cases h'
  · intro t
    by_cases ht : "t" = t <;>
      simp [activeOfType, hookAActive, activeP, ht]

/-- Witness for C1: all three parts of the amended claim applied at
concrete inputs. -/
theorem C1_hook_serialization_witness :
    (activeOfType (runHookOps hookDemoInit
        [HookOp.add "A" "t" 0 0 false, HookOp.add "B" "t" 0 10 false,
         HookOp.start "t", HookOp.ack "A" 1]) "t").length ≤ 1
    ∧ (∀ h1 ∈ (mp_hook_start hookTwoInactive "t").hooks, h1.type = "t" →
        h1.active = true →
        ∀ h2 ∈ (mp_hook_start hookTwoInactive "t").hooks, h2.type = "t" →
          hookLE h1 h2)
    ∧ (∀ h2 ∈ (mp_hook_continue hookAActive "A" 1).1.hooks, h2.type = "t" →
        h2.active = true →
        hookLT { client := "A", type := "t", user_id := 0, priority := 0,
                 seq := 1, legacy := false, active := true } h2) := by
  refine ⟨?_, ?_, ?_⟩
  · refine C1_hook_serialization.1 hookDemoInit
      [HookOp.add "A" "t" 0 0 false, HookOp.add "B" "t" 0 10 false,
       HookOp.start "t", HookOp.ack "A" 1] ?_ (by decide) "t"
    refine ⟨?_, ?_, ?_, ?_⟩
    · simp [hookDemoInit]
    · simp [hookDemoInit]
    · simp [hookDemoInit]
    · intro t; simp [activeOfType, hookDemoInit]
  · exact C1_hook_serialization.2.1 hookTwoInactive "t" hookInv_hookTwoInactive
      (by decide)
  · exact C1_hook_serialization.2.2 hookAActive "A" 1 hookInv_hookAActive
      { client := "A", type := "t", user_id := 0, priority := 0, seq := 1,
        legacy := false, active := true }
      (by decide) rfl rfl rfl

/-! ## Claim C5 -/

theorem start_loop_post (t : String) :
    ∀ (fuel : Nat) (s : HookState), s.hooks.length < fuel →
      ((∃ h ∈ (mp_hook_start_loop t fuel s).hooks,
          h.type = t ∧ h.active = true ∧ s.live.contains h.client = true)
       ∨ ((∀ h ∈ (mp_hook_start_loop t fuel s).hooks, h.type ≠ t) ∧
            s.wakeups < (mp_hook_start_loop t fuel s).wakeups))
      ∧ (∀ h ∈ s.hooks, h ∈ (mp_hook_start_loop t fuel s).hooks ∨
          { h with active := true } ∈ (mp_hook_start_loop t fuel s).hooks ∨
          (h.type = t ∧ s.live.contains h.client = false))
  | 0, s, hfuel => absurd hfuel (by omega)
  | fuel + 1, s, hfuel => by
    rcases run_next_hook_aux_spec s.live t s.hooks with ⟨hall, heq⟩ |
      ⟨pre, h, post, hdec, hpre, htyp, ⟨hl, heq⟩ | ⟨hl, heq⟩⟩
    · have hres : mp_hook_start_loop t (fuel + 1) s =
          { s with hooks := s.hooks, wakeups := s.wakeups + 1 } := by
        simp [mp_hook_start_loop, run_next_hook_handler, heq]
      rw [hres]
      refine ⟨Or.inr ⟨hall, Nat.lt_succ_self s.wakeups⟩, ?_⟩
      intro x hx
      exact Or.inl hx
    · have hres : mp_hook_start_loop t (fuel + 1) s =
          { s with hooks := pre ++ { h with active := true } :: post } := by
        simp [mp_hook_start_loop, run_next_hook_handler, heq]
      rw [hres]
      constructor
      · exact Or.inl ⟨{ h with active := true }, by simp, htyp, rfl, hl⟩
      · intro x hx
        rw [hdec] at hx
        rcases List.mem_append.1 hx with hy | hy
        · exact Or.inl (by simp [hy])
        · rcases List.mem_cons.1 hy with rfl | hy'
          · exact Or.inr (Or.inl (by simp))
          · exact Or.inl (by simp [hy'])
    · have hres : mp_hook_start_loop t (fuel + 1) s =
          mp_hook_start_loop t fuel
            { s with hooks := pre ++ post, wakeups := s.wakeups + 1 } := by
        simp [mp_hook_start_loop, run_next_hook_handler, heq]
      rw [hres]
      have hlen : (pre ++ post).length < fuel := by
        have h1 : s.hooks.length = pre.length + post.length + 1 := by
          rw [hdec]; simp only [List.length_append, List.length_cons]; omega
        simp only [List.length_append]
        omega
      have ih := start_loop_post t fuel
        { s with hooks := pre ++ post, wakeups := s.wakeups + 1 } hlen
      constructor
      · rcases ih.1 with ⟨x, hx, hxt, hxa, hxl⟩ | ⟨hnone, hwk⟩
        · exact Or.inl ⟨x, hx, hxt, hxa, hxl⟩
        · refine Or.inr ⟨hnone, Nat.lt_trans (Nat.lt_succ_self s.wakeups) hwk⟩
      · intro x hx
        rw [hdec] at hx
        rcases List.mem_append.1 hx with hy | hy
        · have := ih.2 x (by simp [hy])
          simpa using this
        · rcases List.mem_cons.1 hy with rfl | hy'
          · exact Or.inr (Or.inr ⟨htyp, hl⟩)
          · have := ih.2 x (by simp [hy'])
            simpa using this

/-- C5: `mp_hook_start` returns only after either a handler of the type has
been activated with its hook event delivered to a live client, or no handler
of the type remains and overall completion has been signalled
(`mp_wakeup_core`); every handler dropped on the way was a handler of that
type whose client no longer exists — dead handlers are removed and the next
one is tried automatically. -/
theorem C5_hook_start_progress (s : HookState) (t : String) :
    ((∃ h ∈ (mp_hook_start s t).hooks,
        h.type = t ∧ h.active = true ∧ s.live.contains h.client = true)
     ∨ ((∀ h ∈ (mp_hook_start s t).hooks, h.type ≠ t) ∧
          s.wakeups < (mp_hook_start s t).wakeups))
    ∧ (∀ h ∈ s.hooks, h ∈ (mp_hook_start s t).hooks ∨
        { h with active := true } ∈ (mp_hook_start s t).hooks ∨
        (h.type = t ∧ s.live.contains h.client = false)) :=
  start_loop_post t (s.hooks.length + 1) s (by omega)

/-- A hook state where the first handler's client is gone and the second is
alive. -/
def hookDeadFirst : HookState :=
  { hooks :=
      [{ client := "A", type := "t", user_id := 0, priority := 0, seq := 1,
         legacy := false, active := false },
       { client := "B", type := "t", user_id := 0, priority := 10, seq := 2,
         legacy := false, active := false }],
    hook_seq := 2, live := ["B"], wakeups := 0 }

/-- Witness for C5 at a concrete input: starting "t" with a dead first
client removes it, activates B's handler, and the dead handler is reported
as a dead-client removal. -/
theorem C5_hook_start_progress_witness :
    ((∃ h ∈ (mp_hook_start hookDeadFirst "t").hooks,
        h.type = "t" ∧ h.active = true ∧
          hookDeadFirst.live.contains h.client = true)
     ∨ ((∀ h ∈ (mp_hook_start hookDeadFirst "t").hooks, h.type ≠ "t") ∧
          hookDeadFirst.wakeups < (mp_hook_start hookDeadFirst "t").wakeups))
    ∧ ({ client := "A", type := "t", user_id := 0, priority := 0, seq := 1,
         legacy := false, active := false } ∈
          (mp_hook_start hookDeadFirst "t").hooks ∨
        { client := "A", type := "t", user_id := 0, priority := 0, seq := 1,
          legacy := false, active := true } ∈
          (mp_hook_start hookDeadFirst "t").hooks ∨
        ("t" = "t" ∧ hookDeadFirst.live.contains "A" = false)) :=
  ⟨(C5_hook_start_progress hookDeadFirst "t").1,
   (C5_hook_start_progress hookDeadFirst "t").2
     { client := "A", type := "t", user_id := 0, priority := 0, seq := 1,
       legacy := false, active := false } (by decide)⟩

/-! ## Claim C6 -/

theorem test_completion_aux_unique (live : List String) (t : String)
    (h : HookHandler) (hdead : live.contains h.client = false)
    (hact : h.active = true) (htyp : h.type = t) :
    ∀ hs : List HookHandler,
      hs.filter (fun x => decide (x.type = t)) = [h] →
      mp_hook_test_completion_aux live t hs =
        (hs.filter (fun x => !decide (x.type = t)), true)
  | [], hfil => by simp at hfil
  | x :: rest, hfil => by
    rw [List.filter_cons] at hfil
    by_cases hxt : x.type = t
    · rw [if_pos (by simp [hxt])] at hfil
      simp only [List.cons.injEq] at hfil
      obtain ⟨rfl, hrest⟩ := hfil
      have hrestF := eq_false_of_filter_nil hrest
      have hcond : x.active = true ∧ x.type = t := ⟨hact, htyp⟩
      have hdm : x.client ∉ live := by simpa using hdead
      have hrest_id : rest.filter (fun y => !decide (y.type = t)) = rest := by
        refine List.filter_eq_self.2 ?_
        intro y hy
        have := hrestF y hy
        simpa using this
      rw [List.filter_cons, if_neg (by simp [hxt]), hrest_id]
      simp [mp_hook_test_completion_aux, hcond, hdm]
    · rw [if_neg (by simp [hxt])] at hfil
      have hcond : ¬(x.active = true ∧ x.type = t) := fun hc => hxt hc.2
      have ih := test_completion_aux_unique live t h hdead hact htyp rest hfil
      simp [mp_hook_test_completion_aux, hcond, ih, List.filter_cons, hxt]

/-- C6: if the client owning the active handler of type `t` no longer
exists and that handler is the only remaining handler of the type, the next
`mp_hook_test_completion` poll removes the dead handler and reports
completion. -/
theorem C6_dead_client_completion (s : HookState) (t : String)
    (h : HookHandler) (hdead : s.live.contains h.client = false)
    (hact : h.active = true) (htyp : h.type = t)
    (honly : s.hooks.filter (fun x => decide (x.type = t)) = [h]) :
    mp_hook_test_completion s t =
      ({ s with hooks := s.hooks.filter (fun x => !decide (x.type = t)) },
        true) := by
  have := test_completion_aux_unique s.live t h hdead hact htyp s.hooks honly
  simp [mp_hook_test_completion, this]

/-- A state whose only "t" handler is active with a disconnected client. -/
def hookOrphan : HookState :=
  { hooks :=
      [{ client := "A", type := "t", user_id := 0, priority := 0, seq := 1,
         legacy := false, active := true },
       { client := "B", type := "u", user_id := 0, priority := 5, seq := 2,
         legacy := false, active := false }],
    hook_seq := 2, live := ["B"], wakeups := 0 }

/-- Witness for C6 at a concrete input. -/
theorem C6_dead_client_completion_witness :
    mp_hook_test_completion hookOrphan "t" =
      ({ hookOrphan with
          hooks := hookOrphan.hooks.filter (fun x => !decide (x.type = "t")) },
        true) :=
  C6_dead_client_completion hookOrphan "t"
    { client := "A", type := "t", user_id := 0, priority := 0, seq := 1,
      legacy := false, active := true }
    (by decide) rfl rfl (by decide)

/-! ## Claim C10 -/

/-- C10: `mp_hook_continue(client, id)`: if no registered handler carries
that (client, seq id) pair, or the matching handler is not active, the call
returns `MPV_ERROR_INVALID_PARAMETER` and the state (in particular every
hook registration) is unchanged; otherwise the matching handler's active
flag is cleared and `run_next_hook_handler` runs on the handlers after it,
invoking the next handler of the same type. -/
theorem C10_hook_continue_contract (s : HookState) (c : String) (id : Int)
    (hnodup : (s.hooks.map HookHandler.seq).Nodup) :
    ((∀ h ∈ s.hooks, ¬(h.client = c ∧ h.seq = id)) →
        mp_hook_continue s c id = (s, MPV_ERROR_INVALID_PARAMETER))
    ∧ (∀ h ∈ s.hooks, h.client = c → h.seq = id → h.active = false →
        mp_hook_continue s c id = (s, MPV_ERROR_INVALID_PARAMETER))
    ∧ (∀ h ∈ s.hooks, h.client = c → h.seq = id → h.active = true →
        ∃ pre post, s.hooks = pre ++ h :: post ∧
          (mp_hook_continue s c id).1.hooks =
            pre ++ { h with active := false } ::
              (run_next_hook_aux s.live h.type post).1 ∧
          (mp_hook_continue s c id).2 =
            (run_next_hook_aux s.live h.type post).2.1) := by
  refine ⟨?_, ?_, ?_⟩
  · intro hnone
    rcases mp_hook_continue_aux_spec s.live c id s.hooks with ⟨hall, heq⟩ |
      ⟨pre, hstar, post, hdec, hpre, hcl, hsq, hcase⟩
    · simp [mp_hook_continue, heq]
    · exact absurd ⟨hcl, hsq⟩ (hnone hstar (by rw [hdec]; simp))
  · intro h hm hc hs hina
    rcases mp_hook_continue_aux_spec s.live c id s.hooks with ⟨hall, heq⟩ |
      ⟨pre, hstar, post, hdec, hpre, hcl, hsq, hcase⟩
    · exact absurd ⟨hc, hs⟩ (hall h hm)
    · have heqh : hstar = h :=
        eq_of_seq_mem_nodup hnodup (by rw [hdec]; simp) hm (by rw [hsq, hs])
      subst heqh
      rcases hcase with ⟨_, heq⟩ | ⟨hact, _⟩
      · simp [mp_hook_continue, heq]
      · rw [hact] at hina; cases hina
  · intro h hm hc hs hact
    rcases mp_hook_continue_aux_spec s.live c id s.hooks with ⟨hall, heq⟩ |
      ⟨pre, hstar, post, hdec, hpre, hcl, hsq, hcase⟩
    · exact absurd ⟨hc, hs⟩ (hall h hm)
    · have heqh : hstar = h :=
        eq_of_seq_mem_nodup hnodup (by rw [hdec]; simp) hm (by rw [hsq, hs])
      subst heqh
      rcases hcase with ⟨hina, _⟩ | ⟨_, heq⟩
      · rw [hina] at hact; cases hact
      · exact ⟨pre, post, hdec, by simp [mp_hook_continue, heq],
          by simp [mp_hook_continue, heq]⟩

/-- Witness for C10: its three cases applied at concrete inputs — an
unknown (client, id) pair, an acknowledgment of an inactive handler, and a
valid acknowledgment of the active handler. -/
theorem C10_hook_continue_contract_witness :
    (mp_hook_continue hookAActive "C" 5 =
      (hookAActive, MPV_ERROR_INVALID_PARAMETER))
    ∧ (mp_hook_continue hookAActive "B" 2 =
      (hookAActive, MPV_ERROR_INVALID_PARAMETER))
    ∧ (∃ pre post, hookAActive.hooks =
        pre ++ { client := "A", type := "t", user_id := 0, priority := 0,
                 seq := 1, legacy := false, active := true } :: post ∧
        (mp_hook_continue hookAActive "A" 1).1.hooks =
          pre ++ { client := "A", type := "t", user_id := 0, priority := 0,
                   seq := 1, legacy := false, active := false } ::
            (run_next_hook_aux hookAActive.live "t" post).1 ∧
        (mp_hook_continue hookAActive "A" 1).2 =
          (run_next_hook_aux hookAActive.live "t" post).2.1) := by
  refine ⟨?_, ?_, ?_⟩
  · exact (C10_hook_continue_contract hookAActive "C" 5 (by decide)).1
      (by decide)
  · exact (C10_hook_continue_contract hookAActive "B" 2 (by decide)).2.1
      { client := "B", type := "t", user_id := 0, priority := 10, seq := 2,
        legacy := false, active := false } (by decide) rfl rfl rfl
  · exact (C10_hook_continue_contract hookAActive "A" 1 (by decide)).2.2
      { client := "A", type := "t", user_id := 0, priority := 0, seq := 1,
        legacy := false, active := true } (by decide) rfl rfl rfl

/-! ## Property name matching (prefix_len / match_property, command.c) -/

/-- C `strncmp(x, y, n) == 0`: compare up to `n` bytes, stopping at the NUL
terminator, which a Lean list models by its end. -/
def strncmpEq : List Char → List Char → Nat → Bool
  | _, _, 0 => true
  | [], [], _ + 1 => true
  | [], _ :: _, _ + 1 => false
  | _ :: _, [], _ + 1 => false
  | a :: as, b :: bs, n + 1 => (a == b) && strncmpEq as bs n

/-- `prefix_len(p)`: offset of the first '/' in the name; if there is no
'/', length + 1 (avoids matching a full name as a proper prefix). -/
def prefix_len : List Char → Nat
  | [] => 1
  | c :: rest => if c = '/' then 0 else 1 + prefix_len rest

/-- The `strncmp(x, "options/", 8) == 0` test plus the `x += 8` step of
`match_property`. -/
def strip_options (x : List Char) : List Char :=
  if x.take 8 = "options/".toList then x.drop 8 else x

/-- `match_property(a, b)` from command.c. -/
def match_property (a b : List Char) : Bool :=
  if a = ['*'] then true
  else
    let a2 := strip_options a
    let b2 := strip_options b
    strncmpEq a2 b2 (min (prefix_len a2) (prefix_len b2))

/-- The first name component (everything before the first '/'). -/
def firstComp (x : List Char) : List Char :=
  x.takeWhile fun c => !decide (c = '/')

def hasSlash (x : List Char) : Bool :=
  x.any fun c => decide (c = '/')

/-- The matching rule exactly as the claim words it: `a` is "*", or after
stripping the alias the two names agree on the prefix up to the first '/',
a name with no '/' matching only as a whole name, never as a proper
prefix — i.e. the two first components are equal. -/
def claim_match (a b : List Char) : Bool :=
  if a = ['*'] then true
  else
    decide (firstComp (strip_options a) = firstComp (strip_options b))

/-- C7 counterexample: the code matches "vid/x" against "video" (it
compares only min(prefix_len) = 3 bytes), while the claim's rule — a name
with no '/' matches only as a whole name — rejects the pair. -/
theorem C7_counterexample :
    match_property ("vid/x".toList) ("video".toList) = true ∧
    claim_match ("vid/x".toList) ("video".toList) = false := by
  constructor
  · rfl
  · rfl

/-- The matching rule actually implemented, in the claim's vocabulary:
`a` is "*", or — after stripping — comparing by the shorter prefix length
(first-component length for a name with '/', whole length plus terminator
otherwise): if that shorter side has a '/', its first component need only
be a byte-prefix of the other name; otherwise the two names must be
equal. -/
def spec_match (a b : List Char) : Bool :=
  if a = ['*'] then true
  else
    let a2 := strip_options a
    let b2 := strip_options b
    if prefix_len a2 ≤ prefix_len b2 then
      if hasSlash a2 then (firstComp a2).isPrefixOf b2 else decide (a2 = b2)
    else
      if hasSlash b2 then (firstComp b2).isPrefixOf a2 else decide (a2 = b2)

theorem strncmpEq_iff : ∀ (n : Nat) (x y : List Char),
    strncmpEq x y n = true ↔
      (x.take n = y.take n ∧ (n ≤ x.length ↔ n ≤ y.length))
  | 0, x, y => by simp [strncmpEq]
  | n + 1, [], [] => by simp [strncmpEq]
  | n + 1, [], b :: bs => by simp [strncmpEq]
  | n + 1, a :: as, [] => by simp [strncmpEq]
  | n + 1, a :: as, b :: bs => by
    simp only [strncmpEq, Bool.and_eq_true, beq_iff_eq, List.take_succ_cons,
      List.length_cons]
    rw [strncmpEq_iff n as bs]
    constructor
    · rintro ⟨rfl, htake, hiff⟩
      refine ⟨by rw [htake], ?_⟩
      omega
    · rintro ⟨hcons, hiff⟩
      injection hcons with h1 h2
      refine ⟨h1, h2, ?_⟩
      omega

theorem bool_eq_of_iff {a b : Bool} (h : a = true ↔ b = true) : a = b := by
  cases a <;> cases b <;> simp_all

theorem prefix_len_no_slash : ∀ {x : List Char}, hasSlash x = false →
    prefix_len x = x.length + 1
  | [], _ => rfl
  | c :: rest, h => by
    simp only [hasSlash, List.any_cons, Bool.or_eq_false_iff,
      decide_eq_false_iff_not] at h
    rw [prefix_len, if_neg h.1, prefix_len_no_slash (by simp [hasSlash, h.2])]
    simp only [List.length_cons]
    omega

theorem firstComp_no_slash {x : List Char} (h : hasSlash x = false) :
    firstComp x = x := by
  refine List.takeWhile_eq_self_iff.2 ?_
  intro c hc
  simp only [hasSlash, List.any_eq_false, decide_eq_false_iff_not] at h
  simp [h c hc]

theorem prefix_len_slash : ∀ {x : List Char}, hasSlash x = true →
    prefix_len x = (firstComp x).length ∧ (firstComp x).length < x.length ∧
      x.take (prefix_len x) = firstComp x
  | [], h => by simp [hasSlash] at h
  | c :: rest, h => by
    by_cases hc : c = '/'
    · subst hc
      exact ⟨by simp [prefix_len, firstComp], by simp [firstComp],
        by simp [prefix_len, firstComp]⟩
    · have hrest : hasSlash rest = true := by
        simp only [hasSlash, List.any_cons] at h
        rcases Bool.or_eq_true_iff.1 h with h1 | h2
        · exact absurd (of_decide_eq_true h1) hc
        · exact h2
      obtain ⟨h1, h2, h3⟩ := prefix_len_slash hrest
      refine ⟨?_, ?_, ?_⟩
      · rw [prefix_len, if_neg hc, h1]
        simp [firstComp, hc]
        omega
      · simp only [firstComp, List.takeWhile_cons, decide_eq_true_eq]
        rw [if_pos (by simp [hc])]
        simp only [List.length_cons]
        simp only [firstComp] at h2
        simp
        omega
      · rw [prefix_len, if_neg hc]
        simp only [firstComp, List.takeWhile_cons]
        rw [if_pos (by simp [hc])]
        rw [Nat.add_comm 1 (prefix_len rest), List.take_succ_cons]
        simp only [firstComp] at h3
        rw [h3]

theorem take_ge_length {x : List Char} {n : Nat} (h : x.length ≤ n) :
    x.take n = x :=
  List.take_of_length_le h

/-- The one-sided characterisation of the byte comparison performed by
`match_property` when the left name has the smaller prefix length. -/
theorem match_oneside (x y : List Char) (hle : prefix_len x ≤ prefix_len y) :
    strncmpEq x y (min (prefix_len x) (prefix_len y)) =
      (if hasSlash x then (firstComp x).isPrefixOf y else decide (x = y)) := by
  have hmin : min (prefix_len x) (prefix_len y) = prefix_len x :=
    Nat.min_eq_left hle
  rw [hmin]
  by_cases hx : hasSlash x = true
  · obtain ⟨h1, h2, h3⟩ := prefix_len_slash hx
    rw [if_pos hx]
    refine bool_eq_of_iff ?_
    rw [strncmpEq_iff, List.isPrefixOf_iff_prefix]
    constructor
    · rintro ⟨htake, hiff⟩
      rw [← h3, htake]
      exact List.take_prefix _ y
    · intro hpref
      have hylen : (firstComp x).length ≤ y.length := hpref.length_le
      refine ⟨?_, ?_⟩
      · rw [h3, h1]
        exact List.prefix_iff_eq_take.1 hpref
      · constructor
        · intro _; omega
        · intro _; omega
  · have hx' : hasSlash x = false := by simpa using hx
    rw [if_neg hx, prefix_len_no_slash hx']
    refine bool_eq_of_iff ?_
    rw [strncmpEq_iff, decide_eq_true_iff]
    constructor
    · rintro ⟨htake, hiff⟩
      have hny : ¬(x.length + 1 ≤ y.length) := fun hy => by
        have := hiff.2 hy; omega
      rw [take_ge_length (by omega), take_ge_length (by omega)] at htake
      exact htake
    · rintro rfl
      exact ⟨rfl, Iff.rfl⟩

theorem strncmpEq_symm : ∀ (n : Nat) (x y : List Char),
    strncmpEq x y n = strncmpEq y x n
  | 0, x, y => by cases x <;> cases y <;> rfl
  | _ + 1, [], [] => rfl
  | _ + 1, [], _ :: _ => rfl
  | _ + 1, _ :: _, [] => rfl
  | n + 1, a :: as, b :: bs => by
    simp only [strncmpEq, strncmpEq_symm n as bs]
    by_cases hab : a = b
    · subst hab; rfl
    · rw [beq_false_of_ne hab, beq_false_of_ne (Ne.symm hab)]

/-- C7 (amended): `match_property(a, b)` returns true iff `a` is "*" (so
the table entry "*" matches every property name), or — after stripping a
leading "options/" from either side — taking the smaller of the two prefix
lengths (component length for a name with '/', whole length plus NUL
otherwise): when that smaller side has a '/', its first component is a
byte-prefix of the other name (so a sub-name like "vid/x" also matches the
plain name "video"), and when it has no '/', the two names are equal. -/
theorem C7_match_property_characterization :
    (∀ b, match_property ['*'] b = true) ∧
    (∀ a b, match_property a b = spec_match a b) := by
  refine ⟨?_, ?_⟩
  · intro b
    simp [match_property]
  · intro a b
    by_cases hstar : a = ['*']
    · simp [match_property, spec_match, hstar]
    · simp only [match_property, spec_match, if_neg hstar]
      by_cases hle :
        prefix_len (strip_options a) ≤ prefix_len (strip_options b)
      · rw [if_pos hle]
        exact match_oneside _ _ hle
      · rw [if_neg hle]
        have hle2 :
            prefix_len (strip_options b) ≤ prefix_len (strip_options a) := by
          omega
        rw [strncmpEq_symm, Nat.min_comm, match_oneside _ _ hle2]
        by_cases hbs : hasSlash (strip_options b) = true
        · rw [if_pos hbs, if_pos hbs]
        · rw [if_neg hbs, if_neg hbs]
          refine bool_eq_of_iff ?_
          rw [decide_eq_true_iff, decide_eq_true_iff]
          exact eq_comm

/-! ## Property set notifications (is_property_set, mp_property_do_silent,
mp_property_do, mp_on_set_option) -/

def M_PROPERTY_OK : Int := 1
def M_PROPERTY_UNKNOWN : Int := -2
def M_OPT_INVALID : Int := -3

/-- The property action codes `is_property_set` inspects;
`M_PROPERTY_KEY_ACTION` carries its nested action. -/
inductive PropertyAction where
  | SET
  | SWITCH
  | SET_STRING
  | SET_NODE
  | MULTIPLY
  | GET
  | GET_TYPE
  | PRINT
  | KEY_ACTION (sub : PropertyAction)
deriving Repr, DecidableEq

/-- `is_property_set(action, val)` from command.c. -/
def is_property_set : PropertyAction → Bool
  | .SET => true
  | .SWITCH => true
  | .SET_STRING => true
  | .SET_NODE => true
  | .MULTIPLY => true
  | .KEY_ACTION sub => is_property_set sub
  | _ => false

/-- Observable outcome of a property call: the `m_property_do` return
value, the property-change notifications emitted (`mp_notify_property`),
and whether option-deprecation warnings were silenced around the inner
accessor call (the `silence_option_deprecations` counter was
incremented). -/
structure PropCallResult where
  r : Int
  notifications : List String
  deprecationsSilenced : Bool
deriving Repr, DecidableEq

/-- `mp_property_do_silent(name, action, val, ctx)`: bump
`silence_option_deprecations` around `m_property_do` (whose outcome is the
abstract parameter `r`), then — when the call succeeded and the action is a
set-class action — call `mp_notify_property(name)`. -/
def mp_property_do_silent (name : String) (action : PropertyAction)
    (r : Int) : PropCallResult :=
  { r := r,
    notifications :=
      if r = M_PROPERTY_OK ∧ is_property_set action = true then [name]
      else [],
    deprecationsSilenced := true }

/-- `mp_property_do(name, action, val, ctx)`: the silent call plus verbose
logging of set actions (which emits no property-change notification). -/
def mp_property_do (name : String) (action : PropertyAction) (r : Int) :
    PropCallResult :=
  mp_property_do_silent name action r

/-- The environment `mp_on_set_option` consults: whether a manually
authored `is_option` property of that name exists in the property table,
the result of the GET_TYPE probe through the silent path, the result of
the silent SET, and the result of `m_config_set_option_raw_direct`. -/
structure OnSetOptionEnv where
  propIsOption : Bool
  getTypeResult : Int
  setResult : Int
  rawSetResult : Int
deriving Repr, DecidableEq

/-- `mp_on_set_option(ctx, co, data, flags)` from command.c: returns the
error code and the property-change notifications emitted.  The
`direct_option` label notifies `mp_notify_property(name)` and then writes
the option storage directly; the property path goes through
`mp_property_do_silent(M_PROPERTY_SET)`. -/
def mp_on_set_option (env : OnSetOptionEnv) (name : String) :
    Int × List String :=
  if env.propIsOption then
    (env.rawSetResult, [name])
  else if env.getTypeResult = M_PROPERTY_UNKNOWN then
    (env.rawSetResult, [name])
  else if env.getTypeResult ≠ M_PROPERTY_OK then
    (M_OPT_INVALID, [])
  else
    let setCall := mp_property_do_silent name PropertyAction.SET env.setResult
    if setCall.r ≠ M_PROPERTY_OK then (M_OPT_INVALID, setCall.notifications)
    else (0, setCall.notifications)

/-- C2 counterexample: the claim's exception clause says the "silent"
variant emits no change notification, but `mp_property_do_silent` calls
`mp_notify_property` on every successful set-class action exactly like
`mp_property_do`: a successful silent SET of "pause" emits the "pause"
notification. -/
theorem C2_counterexample :
    (mp_property_do_silent "pause" PropertyAction.SET
        M_PROPERTY_OK).notifications = ["pause"] ∧
    (mp_property_do_silent "pause" PropertyAction.SET
        M_PROPERTY_OK).notifications ≠ [] := by
  constructor
  · rfl
  · intro h
    simp [mp_property_do_silent, M_PROPERTY_OK, is_property_set] at h

/-- C2 (amended): every set-class operation (set, switch, multiply,
set-string, set-node, or a key action wrapping one) that returns success
emits exactly one change notification for that property name, through
`mp_property_do` and equally through the "silent" variant — whose silence
refers to suppressing option-deprecation warnings around the inner
accessor call, not to notifications; the low-level option path
`mp_on_set_option` also notifies the property name, both when it reuses
the property semantics and when it writes the option directly. -/
theorem C2_set_notification :
    (∀ (name : String) (action : PropertyAction) (r : Int),
        r = M_PROPERTY_OK → is_property_set action = true →
        (mp_property_do name action r).notifications = [name])
    ∧ (∀ (name : String) (action : PropertyAction) (r : Int),
        r = M_PROPERTY_OK → is_property_set action = true →
        (mp_property_do_silent name action r).notifications = [name])
    ∧ (∀ (name : String) (action : PropertyAction) (r : Int),
        (mp_property_do_silent name action r).deprecationsSilenced = true)
    ∧ (∀ (env : OnSetOptionEnv) (name : String), env.propIsOption = true →
        (mp_on_set_option env name).2 = [name])
    ∧ (∀ (env : OnSetOptionEnv) (name : String),
        (mp_on_set_option env name).1 = 0 →
        (mp_on_set_option env name).2 = [name]) := by
  refine ⟨?_, ?_, ?_, ?_, ?_⟩
  · intro name action r hr ha
    simp [mp_property_do, mp_property_do_silent, hr, ha]
  · intro name action r hr ha
    simp [mp_property_do_silent, hr, ha]
  · intro name action r
    rfl
  · intro env name hp
    simp [mp_on_set_option, hp]
  · intro env name hz
    by_cases hp : env.propIsOption = true
    · simp [mp_on_set_option, hp]
    · by_cases hu : env.getTypeResult = M_PROPERTY_UNKNOWN
      · simp [mp_on_set_option, hp, hu]
      · have hne : ¬(M_PROPERTY_OK = M_PROPERTY_UNKNOWN) := by decide
        by_cases hok : env.getTypeResult = M_PROPERTY_OK
        · by_cases hs : env.setResult = M_PROPERTY_OK
          · simp [mp_on_set_option, mp_property_do_silent, hp, hu, hok, hs,
              is_property_set, hne]
          · exfalso
            simp [mp_on_set_option, mp_property_do_silent, hp, hu, hok,
              hs, hne] at hz
            exact absurd hz (by decide)
        · exfalso
          simp [mp_on_set_option, hp, hu, hok] at hz
          exact absurd hz (by decide)
  
/-- Witness for C2 at concrete inputs: a successful SET through
`mp_property_do`, through the silent variant, and through both branches of
the option bridge, each notifying the property name. -/
theorem C2_set_notification_witness :
    (mp_property_do "pause" PropertyAction.SET M_PROPERTY_OK).notifications
        = ["pause"]
    ∧ (mp_property_do_silent "vid" (PropertyAction.KEY_ACTION
        PropertyAction.SET_STRING) M_PROPERTY_OK).notifications = ["vid"]
    ∧ (mp_on_set_option
        { propIsOption := true, getTypeResult := M_PROPERTY_OK,
          setResult := M_PROPERTY_OK, rawSetResult := 0 } "volume").2
        = ["volume"]
    ∧ (mp_on_set_option
        { propIsOption := false, getTypeResult := M_PROPERTY_OK,
          setResult := M_PROPERTY_OK, rawSetResult := 0 } "volume").2
        = ["volume"] :=
  ⟨C2_set_notification.1 "pause" PropertyAction.SET M_PROPERTY_OK rfl rfl,
   C2_set_notification.2.1 "vid"
     (PropertyAction.KEY_ACTION PropertyAction.SET_STRING) M_PROPERTY_OK rfl
     rfl,
   C2_set_notification.2.2.2.1
     { propIsOption := true, getTypeResult := M_PROPERTY_OK,
       setResult := M_PROPERTY_OK, rawSetResult := 0 } "volume" rfl,
   C2_set_notification.2.2.2.2
     { propIsOption := false, getTypeResult := M_PROPERTY_OK,
       setResult := M_PROPERTY_OK, rawSetResult := 0 } "volume" (by rfl)⟩

/-! ## The list command (cmd_list / continue_cmd_list /
on_cmd_list_sub_completion) -/

/-- A sub-command of a list command: whether it carries `MP_ASYNC_CMD`
(fire and forget), whether its handler fails, and an id recording its
execution and side effect. -/
structure SubCmd where
  async : Bool
  fails : Bool
  id : Nat
deriving Repr, DecidableEq

/-- The observable pieces of `struct cmd_list_ctx` plus the execution
trace: ids of executed sub-commands in order, the recursion-detection
flags, and the parent command context's success flag and completion
state. -/
structure CmdListState where
  executed : List Nat
  current_valid : Bool
  completed_recursive : Bool
  parentSuccess : Bool
  parentCompleted : Bool
deriving Repr, DecidableEq

/-- `on_cmd_list_sub_completion(cmd)`: when completion happens on the same
thread that is running the loop (`current_valid` set), it only records
`completed_recursive`; it never copies the sub-command's success into the
parent context.  (The out-of-line branch re-enters `continue_cmd_list`; it
is unreachable in this single-threaded model, where every synchronous
sub-command completes recursively.) -/
def on_cmd_list_sub_completion (_subSuccess : Bool) (st : CmdListState) :
    CmdListState :=
  if st.current_valid then { st with completed_recursive := true }
  else st

/-- One `run_command` invocation of a synchronous sub-command in the
single-threaded model: the handler runs (recording the id; a failing
handler only sets the sub-command's own context success to false), the
sub-context completes, and the completion callback
`on_cmd_list_sub_completion` is invoked recursively. -/
def run_sub (sub : SubCmd) (st : CmdListState) : CmdListState :=
  on_cmd_list_sub_completion (!sub.fails)
    { st with executed := st.executed ++ [sub.id] }

/-- `continue_cmd_list(list)`: the iterative driver. -/
def continue_cmd_list (st : CmdListState) : List SubCmd → CmdListState
  | [] => { st with parentCompleted := true }
  | sub :: rest =>
    if sub.async then
      continue_cmd_list { st with executed := st.executed ++ [sub.id] } rest
    else
      let st1 := { st with completed_recursive := false,
                           current_valid := true }
      let st2 := run_sub sub st1
      let st3 := { st2 with current_valid := false }
      if !st3.completed_recursive then st3
      else continue_cmd_list st3 rest

/-- `cmd_list(p)`: drive the sub-commands of a freshly created parent
context, whose success flag `run_command` initialised to true. -/
def cmd_list (subs : List SubCmd) : CmdListState :=
  continue_cmd_list
    { executed := [], current_valid := false, completed_recursive := false,
      parentSuccess := true, parentCompleted := false } subs

/-- C3 counterexample: a list of three synchronous sub-commands whose
second fails still executes all three in order, but the parent's reported
success stays true — `on_cmd_list_sub_completion` never propagates a
sub-command failure into the parent context, so the claim's "the parent
list command's own reported success is false" is wrong on this code. -/
theorem C3_counterexample :
    (cmd_list [{ async := false, fails := false, id := 1 },
               { async := false, fails := true, id := 2 },
               { async := false, fails := false, id := 3 }]).executed
        = [1, 2, 3]
    ∧ (cmd_list [{ async := false, fails := false, id := 1 },
                 { async := false, fails := true, id := 2 },
                 { async := false, fails := false, id := 3 }]).parentSuccess
        = true := by
  constructor
  · rfl
  · rfl

/-- C3 (amended): every sub-command of a list command is executed, in
declaration order, regardless of failures of earlier synchronous
sub-commands; already-applied effects are never rolled back (the execution
trace only grows, keeping earlier ids); the parent context always
completes, and its reported success remains true — sub-command failure is
not propagated to the parent's success flag. -/
theorem C3_list_command :
    (∀ (subs : List SubCmd) (st : CmdListState),
        (continue_cmd_list st subs).executed =
            st.executed ++ subs.map SubCmd.id ∧
        (continue_cmd_list st subs).parentSuccess = st.parentSuccess ∧
        (continue_cmd_list st subs).parentCompleted = true)
    ∧ (∀ subs : List SubCmd,
        (cmd_list subs).executed = subs.map SubCmd.id ∧
        (cmd_list subs).parentSuccess = true ∧
        (cmd_list subs).parentCompleted = true) := by
  have hmain : ∀ (subs : List SubCmd) (st : CmdListState),
      (continue_cmd_list st subs).executed =
          st.executed ++ subs.map SubCmd.id ∧
      (continue_cmd_list st subs).parentSuccess = st.parentSuccess ∧
      (continue_cmd_list st subs).parentCompleted = true := by
    intro subs
    induction subs with
    | nil => intro st; simp [continue_cmd_list]
    | cons sub rest ih =>
      intro st
      by_cases ha : sub.async = true
      · simp only [continue_cmd_list, ha, if_true]
        obtain ⟨h1, h2, h3⟩ := ih _
        refine ⟨?_, h2, h3⟩
        rw [h1]
        simp
      · have hb : sub.async = false := by simpa using ha
        obtain ⟨h1, h2, h3⟩ := ih
          { executed := st.executed ++ [sub.id], current_valid := false,
            completed_recursive := true,
            parentSuccess := st.parentSuccess,
            parentCompleted := st.parentCompleted }
        refine ⟨?_, ?_, ?_⟩ <;>
          simp [continue_cmd_list, hb, run_sub, on_cmd_list_sub_completion,
            h1, h2, h3]
  refine ⟨hmain, ?_⟩
  intro subs
  obtain ⟨h1, h2, h3⟩ := hmain subs
    { executed := [], current_valid := false, completed_recursive := false,
      parentSuccess := true, parentCompleted := false }
  exact ⟨by rw [cmd_list, h1]; simp, by rw [cmd_list, h2], by rw [cmd_list, h3]⟩

/-! ## The command pipeline (run_command, mp_cmd_ctx_complete,
run_command_on_worker_thread) -/

/-- Events observable around one command invocation. -/
inductive CmdEvent where
  | handler
  | continuation
  | destroy
deriving Repr, DecidableEq

/-- The flags of `struct mp_cmd_def` driving `run_command`'s control
flow. -/
structure CmdDefFlags where
  spawn_thread : Bool
  exec_async : Bool
deriving Repr, DecidableEq

/-- `mp_cmd_ctx_complete(cmd)`: mark completed, invoke the completion
continuation (a NULL continuation is simply skipped — the model records the
invocation point either way), drop the abort entry, free the context: the
destroy immediately follows the continuation's return. -/
def mp_cmd_ctx_complete_events : List CmdEvent :=
  [CmdEvent.continuation, CmdEvent.destroy]

/-- Outcome of `run_command`: events on the calling thread before
`run_command` returns, events happening later (worker thread, or a
completion deferred by an async handler), and the context's success flag
at the moment it completes. -/
structure RunCommandResult where
  syncEvents : List CmdEvent
  laterEvents : List CmdEvent
  successAtCompletion : Bool
deriving Repr, DecidableEq

/-- The execution step shared by the inline path of `run_command` and by
`run_command_on_worker_thread`: run the handler; when the command is not
`exec_async`, complete the context right away; an `exec_async` handler
completes the context itself, recorded as `asyncCompletes` handler-issued
completions. -/
def run_handler_events (d : CmdDefFlags) (asyncCompletes : Nat) :
    List CmdEvent :=
  CmdEvent.handler ::
    (if d.exec_async then
      (List.replicate asyncCompletes mp_cmd_ctx_complete_events).flatten
    else mp_cmd_ctx_complete_events)

/-- `run_command(mpctx, cmd, abort, on_completion, on_completion_priv)`:
`expandOk` is whether property expansion of the string arguments
succeeded, `queueOk` whether `mp_thread_pool_queue` accepted the job,
`handlerSuccess` what the handler leaves in `ctx->success` (initialised to
true by `run_command`). -/
def run_command (d : CmdDefFlags) (expandOk queueOk handlerSuccess : Bool)
    (asyncCompletes : Nat) : RunCommandResult :=
  if !expandOk then
    { syncEvents := mp_cmd_ctx_complete_events, laterEvents := [],
      successAtCompletion := false }
  else if d.spawn_thread then
    if !queueOk then
      { syncEvents := mp_cmd_ctx_complete_events, laterEvents := [],
        successAtCompletion := false }
    else
      { syncEvents := [],
        laterEvents := run_handler_events d asyncCompletes,
        successAtCompletion := handlerSuccess }
  else
    { syncEvents := run_handler_events d asyncCompletes, laterEvents := [],
      successAtCompletion := handlerSuccess }

def countEvent (e : CmdEvent) (l : List CmdEvent) : Nat :=
  (l.filter fun x => decide (x = e)).length

/-- Every continuation invocation is immediately followed by the destroy
of its context. -/
def destroyedRightAfter : List CmdEvent → Bool
  | [] => true
  | CmdEvent.continuation :: rest =>
    match rest with
    | CmdEvent.destroy :: rest2 => destroyedRightAfter rest2
    | _ => false
  | _ :: rest => destroyedRightAfter rest

theorem run_handler_events_once (d : CmdDefFlags) (asyncCompletes : Nat)
    (h : d.exec_async = true → asyncCompletes = 1) :
    countEvent CmdEvent.continuation (run_handler_events d asyncCompletes)
        = 1
    ∧ destroyedRightAfter (run_handler_events d asyncCompletes) = true := by
  by_cases ha : d.exec_async = true
  · rw [run_handler_events, if_pos ha, h ha]
    exact ⟨rfl, rfl⟩
  · rw [run_handler_events, if_neg ha]
    exact ⟨rfl, rfl⟩

/-- C4: for every submitted command — whether it completes inline, fails
property expansion, fails worker-pool submission, runs on the worker pool,
or is an async command whose handler completes it later (exactly once, per
the async-handler contract) — the completion continuation is invoked
exactly once, and the command context is destroyed immediately after the
continuation returns. -/
theorem C4_completion_exactly_once (d : CmdDefFlags)
    (expandOk queueOk handlerSuccess : Bool) (asyncCompletes : Nat)
    (hasync : d.exec_async = true → asyncCompletes = 1) :
    countEvent CmdEvent.continuation
        ((run_command d expandOk queueOk handlerSuccess
            asyncCompletes).syncEvents ++
          (run_command d expandOk queueOk handlerSuccess
            asyncCompletes).laterEvents) = 1
    ∧ destroyedRightAfter
        ((run_command d expandOk queueOk handlerSuccess
            asyncCompletes).syncEvents ++
          (run_command d expandOk queueOk handlerSuccess
            asyncCompletes).laterEvents) = true := by
  obtain ⟨hc, hd⟩ := run_handler_events_once d asyncCompletes hasync
  by_cases he : expandOk = true
  · by_cases hs : d.spawn_thread = true
    · by_cases hq : queueOk = true
      · simp [run_command, he, hs, hq, hc, hd]
      · simp [run_command, he, hs, hq]
        constructor <;> rfl
    · simp [run_command, he, hs, List.append_nil, hc, hd]
  · simp [run_command, he]
    constructor <;> rfl

/-- Witness for C4 at concrete inputs: a worker-pool async command with a
single handler-issued completion. -/
theorem C4_completion_exactly_once_witness :
    countEvent CmdEvent.continuation
        ((run_command { spawn_thread := true, exec_async := true } true true
            true 1).syncEvents ++
          (run_command { spawn_thread := true, exec_async := true } true
            true true 1).laterEvents) = 1
    ∧ destroyedRightAfter
        ((run_command { spawn_thread := true, exec_async := true } true true
            true 1).syncEvents ++
          (run_command { spawn_thread := true, exec_async := true } true
            true true 1).laterEvents) = true :=
  C4_completion_exactly_once { spawn_thread := true, exec_async := true }
    true true true 1 (fun _ => rfl)

/-- C9: on a spawn-on-worker command, when queueing onto the worker pool
fails the command is completed immediately as failed: its success flag is
false at completion, the completion continuation runs exactly once before
`run_command` returns, and the handler never runs. -/
theorem C9_worker_submission_failure (d : CmdDefFlags)
    (handlerSuccess : Bool) (asyncCompletes : Nat)
    (hspawn : d.spawn_thread = true) :
    (run_command d true false handlerSuccess
        asyncCompletes).successAtCompletion = false
    ∧ countEvent CmdEvent.continuation
        (run_command d true false handlerSuccess
          asyncCompletes).syncEvents = 1
    ∧ countEvent CmdEvent.handler
        ((run_command d true false handlerSuccess
            asyncCompletes).syncEvents ++
          (run_command d true false handlerSuccess
            asyncCompletes).laterEvents) = 0 := by
  simp [run_command, hspawn]
  exact ⟨rfl, rfl⟩

/-- Witness for C9 at a concrete input. -/
theorem C9_worker_submission_failure_witness :
    (run_command { spawn_thread := true, exec_async := false } true false
        true 0).successAtCompletion = false
    ∧ countEvent CmdEvent.continuation
        (run_command { spawn_thread := true, exec_async := false } true
          false true 0).syncEvents = 1
    ∧ countEvent CmdEvent.handler
        ((run_command { spawn_thread := true, exec_async := false } true
            false true 0).syncEvents ++
          (run_command { spawn_thread := true, exec_async := false } true
            false true 0).laterEvents) = 0 :=
  C9_worker_submission_failure { spawn_thread := true, exec_async := false }
    true 0 rfl

/-! ## cycle-values (compare_values / cmd_cycle_values) -/

/-- The pieces of the property's `struct m_option` type that
`cmd_cycle_values` uses: `m_option_parse` (`none` for a negative return)
and `m_option_print` (total: a failed print is treated as "" by
`compare_values`, which is what `bstr0(NULL)` does). -/
structure PropType (α : Type) where
  parse : String → Option α
  print : α → String

/-- `compare_values(type, a, b)`: convert both values to the common,
unambiguous string representation and compare those. -/
def compare_values {α : Type} (p : PropType α) (a b : α) : Bool :=
  p.print a == p.print b

/-- The "find the current value" loop of `cmd_cycle_values`: scan the
candidates from index `first`; a candidate the property's parser rejects
is skipped; stop at the first whose parsed, re-printed value equals the
current value. -/
def find_current {α : Type} (p : PropType α) (cur : α) :
    List String → Nat → Option Nat
  | [], _ => none
  | sarg :: rest, n =>
    match p.parse sarg with
    | none => find_current p cur rest (n + 1)
    | some v =>
      if compare_values p cur v then some n
      else find_current p cur rest (n + 1)

/-- A candidate literal matches the current value after normalization
through the property's own parser and printer. -/
def normalized_matches {α : Type} (p : PropType α) (cur : α) (s : String) :
    Bool :=
  match p.parse s with
  | none => false
  | some v => compare_values p cur v

/-- `cmd_cycle_values(p)`, with the property's GET_TYPE and GET having
succeeded (abstract type `p`, current value `cur`): returns the string
handed to `M_PROPERTY_SET_STRING` through `change_property_cmd`, or `none`
when there are no value arguments.  `args` is the full argument vector:
an optional leading "!reverse", the property name, then the candidate
literals. -/
def cmd_cycle_values {α : Type} (p : PropType α) (cur : α)
    (args : List String) : Option String :=
  let fd : Nat × Int :=
    if args.head? = some "!reverse" then (1, -1) else (0, 1)
  let first := fd.1 + 1
  let dir := fd.2
  let num := args.length
  if first ≥ num then none
  else
    let cur? := find_current p cur (args.drop first) first
    let current : Nat :=
      match cur? with
      | some c =>
        let c2 : Int := (c : Int) + dir
        if c2 < (first : Int) then num - 1
        else if c2 ≥ (num : Int) then first
        else c2.toNat
      | none => if dir > 0 then first else num - 1
    args[current]?

theorem find_current_eq_findIdx {α : Type} (p : PropType α) (cur : α) :
    ∀ (l : List String) (base : Nat),
      find_current p cur l base =
        List.findIdx? (normalized_matches p cur) l base
  | [], _ => rfl
  | s :: rest, base => by
    rw [List.findIdx?_cons]
    cases hparse : p.parse s with
    | none =>
      simp [find_current, hparse, normalized_matches,
        find_current_eq_findIdx p cur rest (base + 1)]
    | some v =>
      by_cases hcmp : compare_values p cur v = true
      · simp [find_current, hparse, normalized_matches, hcmp]
      · simp [find_current, hparse, normalized_matches, hcmp,
          find_current_eq_findIdx p cur rest (base + 1)]

theorem find_current_bounds {α : Type} (p : PropType α) (cur : α) :
    ∀ (l : List String) (base n : Nat),
      find_current p cur l base = some n → base ≤ n ∧ n < base + l.length
  | [], base, n, h => by simp [find_current] at h
  | s :: rest, base, n, h => by
    rw [find_current] at h
    cases hparse : p.parse s with
    | none =>
      rw [hparse] at h
      have := find_current_bounds p cur rest (base + 1) n h
      simp only [List.length_cons]
      omega
    | some v =>
      rw [hparse] at h
      by_cases hcmp : compare_values p cur v = true
      · simp only [hcmp, if_true, Option.some.injEq] at h
        simp only [List.length_cons]
        omega
      · simp only [hcmp, if_false] at h
        have := find_current_bounds p cur rest (base + 1) n h
        simp only [List.length_cons]
        omega

theorem cmd_cycle_values_fwd {α : Type} (p : PropType α) (cur : α)
    (args : List String) (hrev : ¬(args.head? = some "!reverse"))
    (hnum : 1 < args.length) :
    cmd_cycle_values p cur args =
      args[(match find_current p cur (args.drop 1) 1 with
            | some c => if c + 1 ≥ args.length then 1 else c + 1
            | none => 1)]? := by
  rw [cmd_cycle_values]
  simp only [hrev, if_false]
  rw [if_neg (by omega)]
  simp only [Nat.zero_add]
  rcases hf : find_current p cur (args.drop 1) 1 with _ | c
  · simp only [hf]
    rw [if_pos (by omega)]
  · have hb := find_current_bounds p cur (args.drop 1) 1 c hf
    have hlen : (args.drop 1).length = args.length - 1 := by simp
    simp only [hf]
    split_ifs <;> first
      | rfl
      | (congr 1; omega)

theorem cmd_cycle_values_rev {α : Type} (p : PropType α) (cur : α)
    (args : List String) (hrev : args.head? = some "!reverse")
    (hnum : 2 < args.length) :
    cmd_cycle_values p cur args =
      args[(match find_current p cur (args.drop 2) 2 with
            | some c => if c = 2 then args.length - 1 else c - 1
            | none => args.length - 1)]? := by
  rw [cmd_cycle_values]
  simp only [hrev, if_true]
  rw [if_neg (by omega)]
  rcases hf : find_current p cur (args.drop 2) 2 with _ | c
  · simp only [hf]
    rw [if_neg (by omega)]
  · have hb := find_current_bounds p cur (args.drop 2) 2 c hf
    have hlen : (args.drop 2).length = args.length - 2 := by simp
    simp only [hf]
    split_ifs
    · rfl
    · exfalso; omega
    · exfalso; omega
    · exfalso; omega
    · exfalso; omega
    · have hidx : ((c : Int) + -1).toNat = c - 1 := by omega
      rw [hidx]

/-- C8: `cycle-values` locates the current position by parsing each
candidate literal through the property's own type parser and comparing the
normalized (printed) value — never the raw string — against the property's
current value: the position found is exactly the first candidate index
whose normalized value matches (`List.findIdx?` over
`normalized_matches`).  It then sets the property (via
`M_PROPERTY_SET_STRING` on the chosen candidate) to the candidate adjacent
in the commanded direction, wrapping from the last candidate to the first
in forward mode and from the first to the last in reverse mode. -/
theorem C8_cycle_values_normalized (α : Type) (p : PropType α) (cur : α)
    (args : List String) :
    (∀ (l : List String) (base : Nat),
        find_current p cur l base =
          List.findIdx? (normalized_matches p cur) l base)
    ∧ (∀ c, ¬(args.head? = some "!reverse") →
        find_current p cur (args.drop 1) 1 = some c →
        ((c + 1 < args.length → cmd_cycle_values p cur args = args[c + 1]?)
         ∧ (c + 1 = args.length → cmd_cycle_values p cur args = args[1]?)))
    ∧ (∀ c, args.head? = some "!reverse" →
        find_current p cur (args.drop 2) 2 = some c →
        ((2 < c → cmd_cycle_values p cur args = args[c - 1]?)
         ∧ (c = 2 → cmd_cycle_values p cur args =
              args[args.length - 1]?))) := by
  refine ⟨fun l base => find_current_eq_findIdx p cur l base, ?_, ?_⟩
  · intro c hrev hfind
    have hb := find_current_bounds p cur (args.drop 1) 1 c hfind
    have hlen : (args.drop 1).length = args.length - 1 := by simp
    have hnum : 1 < args.length := by omega
    constructor
    · intro hlt
      rw [cmd_cycle_values_fwd p cur args hrev hnum]
      simp only [hfind]
      rw [if_neg (by omega)]
    · intro heq
      rw [cmd_cycle_values_fwd p cur args hrev hnum]
      simp only [hfind]
      rw [if_pos (by omega)]
  · intro c hrev hfind
    have hb := find_current_bounds p cur (args.drop 2) 2 c hfind
    have hlen : (args.drop 2).length = args.length - 2 := by simp
    have hnum : 2 < args.length := by omega
    constructor
    · intro hgt
      rw [cmd_cycle_values_rev p cur args hrev hnum]
      simp only [hfind]
      rw [if_neg (by omega)]
    · intro heq
      rw [cmd_cycle_values_rev p cur args hrev hnum]
      simp only [hfind]
      rw [if_pos heq]

/-- A tiny property type whose parser accepts "one" (parsing it to 1) and
"2"; raw-string comparison of "one" against the printed current value "1"
would fail, normalized comparison succeeds. -/
def demoProp : PropType Nat :=
  { parse := fun s =>
      if s = "one" then some 1 else if s = "2" then some 2 else none,
    print := fun n => toString n }

/-- Witness for C8 at a concrete input: with current value 1 and
candidates ["one", "2"], the candidate "one" is located by normalized
comparison (raw "one" is not the printed "1") and the property is set to
the adjacent candidate "2". -/
theorem C8_cycle_values_normalized_witness :
    cmd_cycle_values demoProp 1 ["vol", "one", "2"] =
      ["vol", "one", "2"][2]? :=
  ((C8_cycle_values_normalized Nat demoProp 1 ["vol", "one", "2"]).2.1 1
    (by decide) rfl).1 (by decide)
